import Mathlib

/-!
Verification of the image-processing core of `go-image-processor`
(`pkg/processor/processor.go`) against its natural-language specification.

The Go code is shallowly embedded: pixel buffers become structures holding
dimensions and a pixel function, per-pixel `Set` loops over fresh output
buffers become pointwise definitions or explicit folds, Go `int`/`uint`
arithmetic becomes `ℕ`/`ℤ`, and `float64` arithmetic becomes exact `ℚ`
arithmetic (calls to `math.Sin`/`math.Cos` are abstracted as `ℚ`-valued
parameters, since every concrete `float64` value is a rational).
Go's `int(f)` float-to-integer conversion truncates toward zero, which
`goTrunc` mirrors.
-/

namespace ImgProc

/-- One RGBA pixel, channels in 0..255 (the decoded 8-bit buffer). -/
structure RGBA where
  r : ℕ
  g : ℕ
  b : ℕ
  a : ℕ
deriving DecidableEq

/-- In-memory RGBA raster buffer: width, height and a pixel map. -/
structure RGBAImage where
  w : ℕ
  h : ℕ
  pix : ℕ → ℕ → RGBA

/-- In-memory 8-bit grayscale raster buffer. -/
structure GrayImage where
  w : ℕ
  h : ℕ
  pix : ℕ → ℕ → ℕ

/-- Go's `int(f)` / `uint(f)` conversion for a finite float: truncation
toward zero. -/
def goTrunc (q : ℚ) : ℤ :=
  if 0 ≤ q then ⌊q⌋ else ⌈q⌉

theorem goTrunc_of_nonneg {q : ℚ} (h : 0 ≤ q) : goTrunc q = ⌊q⌋ := by
  simp [goTrunc, h]

theorem goTrunc_natCast (n : ℕ) : goTrunc (n : ℚ) = n := by
  rw [goTrunc_of_nonneg (by positivity), Int.floor_natCast]

/-- The pixel scan order of a double loop `for y … { for x … }`:
y outer, x inner, row-major. -/
def pixelList (w h : ℕ) : List (ℕ × ℕ) :=
  (List.range h).flatMap (fun y => (List.range w).map (fun x => (x, y)))

/-- Error taxonomy of the package (`ErrInvalidInput`, `ErrInvalidOutput`,
`ErrProcessing`, `ErrUnsupportedFormat`). -/
inductive ProcErr where
  | invalidInput : ProcErr
  | invalidOutput : ProcErr
  | processing : ProcErr
  | unsupportedFormat : ProcErr
deriving DecidableEq

/-!
### Aspect-preserving resize (`ResizeImage`, processor.go lines 702-735)

The Go code compares `float64(width)/float64(height) > ratio`.  With IEEE
semantics a division by a zero height yields `+Inf` (comparing greater than
any finite ratio) when the width is positive, and `NaN` (comparing false)
when the width is zero; `divGTratio` encodes exactly that.
-/

def divGTratio (aNum bDen : ℕ) (ratio : ℚ) : Bool :=
  if bDen = 0 then decide (0 < aNum)
  else decide (ratio < (aNum : ℚ) / (bDen : ℚ))

/-- New dimensions `(newWidth, newHeight)` computed by `ResizeImage`:
`ratio := W/H`; if `tw/th > ratio` the height binds
(`newH = th`, `newW = uint(th*ratio)`), else the width binds
(`newW = tw`, `newH = uint(tw/ratio)`). -/
def resizeDims (W H tw th : ℕ) : ℕ × ℕ :=
  let ratio : ℚ := (W : ℚ) / (H : ℚ)
  if divGTratio tw th ratio then
    ((goTrunc ((th : ℚ) * ratio)).toNat, th)
  else
    (tw, (goTrunc ((tw : ℚ) / ratio)).toNat)

/-- The dimension computation exactly as the specification words it, with
`round` (nearest integer) in place of the code's truncation; kept for
comparison with `resizeDims`. -/
def resizeDimsRounded (W H tw th : ℕ) : ℕ × ℕ :=
  let ratio : ℚ := (W : ℚ) / (H : ℚ)
  if divGTratio tw th ratio then
    ((round ((th : ℚ) * ratio)).toNat, th)
  else
    (tw, (round ((tw : ℚ) / ratio)).toNat)

/-- The post-decode core of `ResizeImage`: it only computes the target
dimensions and hands them to the resampling library.  No error path exists
between decoding and encoding — in particular no geometry validation. -/
def ResizeImageCore (W H tw th : ℕ) : Except ProcErr (ℕ × ℕ) :=
  Except.ok (resizeDims W H tw th)

/-!
### Concatenation (`ConcatenateImagesVertically` / `ConcatenateImagesHorizontally`,
processor.go lines 966-1105)

Dimension-level model: decoding and the resampling library are external
collaborators; the in-repo logic computes the binding dimension, the
per-input resized dimensions (`ratio := w/h`, `newHeight = int(maxW/ratio)`
resp. `newWidth = int(maxH*ratio)`) and the output dimensions.
-/

def concatVMaxWidth (ds : List (ℕ × ℕ)) : ℕ :=
  ds.foldl (fun m p => if p.1 > m then p.1 else m) 0

def concatVHeight (maxW : ℕ) (p : ℕ × ℕ) : ℕ :=
  (goTrunc ((maxW : ℚ) / ((p.1 : ℚ) / (p.2 : ℚ)))).toNat

def concatVDims (ds : List (ℕ × ℕ)) : ℕ × ℕ :=
  (concatVMaxWidth ds,
   ds.foldl (fun t p => t + concatVHeight (concatVMaxWidth ds) p) 0)

def concatHMaxHeight (ds : List (ℕ × ℕ)) : ℕ :=
  ds.foldl (fun m p => if p.2 > m then p.2 else m) 0

def concatHWidth (maxH : ℕ) (p : ℕ × ℕ) : ℕ :=
  (goTrunc ((maxH : ℚ) * ((p.1 : ℚ) / (p.2 : ℚ)))).toNat

def concatHDims (ds : List (ℕ × ℕ)) : ℕ × ℕ :=
  (ds.foldl (fun t p => t + concatHWidth (concatHMaxHeight ds) p) 0,
   concatHMaxHeight ds)

def ConcatenateImagesVerticallyCore (ds : List (ℕ × ℕ)) : Except ProcErr (ℕ × ℕ) :=
  Except.ok (concatVDims ds)

def ConcatenateImagesHorizontallyCore (ds : List (ℕ × ℕ)) : Except ProcErr (ℕ × ℕ) :=
  Except.ok (concatHDims ds)

/-- C4 (counterexample): on a 3×5 source with targets (2, 3) the height
binds and the code truncates `3·(3/5) = 9/5` to 1, whereas the claim's
`round(th·ratio)` gives 2; so `resizeDims` disagrees with the rounded
formula the claim states. -/
theorem resizeDims_round_counterexample :
    resizeDims 3 5 2 3 ≠ resizeDimsRounded 3 5 2 3 := by
  have h1 : resizeDims 3 5 2 3 = (1, 3) := by
    norm_num [resizeDims, divGTratio, goTrunc]
  have h2 : resizeDimsRounded 3 5 2 3 = (2, 3) := by
    norm_num [resizeDimsRounded, divGTratio, round_eq]
    rfl
  rw [h1, h2]
  decide

/-- C4 (amended): for positive source and target dimensions, `ResizeImage`
picks the binding dimension by comparing `tw/th` with `ratio = W/H` and
computes the free dimension by truncating (not rounding) `th·ratio`
resp. `tw/ratio`; consequently `newW ≤ tw`, `newH ≤ th`, and the output
preserves the aspect ratio within (downward) rounding. -/
theorem resizeDims_spec (W H tw th : ℕ) (hW : 0 < W) (hH : 0 < H)
    (htw : 0 < tw) (hth : 0 < th) :
    ((W : ℚ) / (H : ℚ) < (tw : ℚ) / (th : ℚ) →
      resizeDims W H tw th = ((⌊(th : ℚ) * ((W : ℚ) / (H : ℚ))⌋).toNat, th)) ∧
    ((tw : ℚ) / (th : ℚ) ≤ (W : ℚ) / (H : ℚ) →
      resizeDims W H tw th = (tw, (⌊(tw : ℚ) / ((W : ℚ) / (H : ℚ))⌋).toNat)) ∧
    (resizeDims W H tw th).1 ≤ tw ∧ (resizeDims W H tw th).2 ≤ th ∧
    (((resizeDims W H tw th).1 : ℚ) ≤ ((resizeDims W H tw th).2 : ℚ) * ((W : ℚ) / (H : ℚ)) ∧
        ((resizeDims W H tw th).2 : ℚ) * ((W : ℚ) / (H : ℚ)) < (resizeDims W H tw th).1 + 1 ∨
      ((resizeDims W H tw th).2 : ℚ) ≤ ((resizeDims W H tw th).1 : ℚ) / ((W : ℚ) / (H : ℚ)) ∧
        ((resizeDims W H tw th).1 : ℚ) / ((W : ℚ) / (H : ℚ)) < (resizeDims W H tw th).2 + 1) := by
  have hH0 : (0 : ℚ) < (H : ℚ) := by exact_mod_cast hH
  have hW0 : (0 : ℚ) < (W : ℚ) := by exact_mod_cast hW
  have hth0 : (0 : ℚ) < (th : ℚ) := by exact_mod_cast hth
  have htw0 : (0 : ℚ) < (tw : ℚ) := by exact_mod_cast htw
  have hr : (0 : ℚ) < (W : ℚ) / (H : ℚ) := div_pos hW0 hH0
  have hdiv : divGTratio tw th ((W : ℚ) / (H : ℚ))
      = decide ((W : ℚ) / (H : ℚ) < (tw : ℚ) / (th : ℚ)) := by
    unfold divGTratio
    rw [if_neg hth.ne']
  by_cases hc : (W : ℚ) / (H : ℚ) < (tw : ℚ) / (th : ℚ)
  · have hres : resizeDims W H tw th
        = ((⌊(th : ℚ) * ((W : ℚ) / (H : ℚ))⌋).toNat, th) := by
      simp [resizeDims, hdiv, hc, goTrunc_of_nonneg (mul_nonneg hth0.le hr.le)]
    have hlt : (th : ℚ) * ((W : ℚ) / (H : ℚ)) < tw := by
      rw [div_lt_div_iff₀ hH0 hth0] at hc
      have h2 : (th : ℚ) * ((W : ℚ) / (H : ℚ)) = (th : ℚ) * (W : ℚ) / (H : ℚ) := by
        ring
      rw [h2, div_lt_iff₀ hH0]
      linarith
    have hfl0 : (0 : ℤ) ≤ ⌊(th : ℚ) * ((W : ℚ) / (H : ℚ))⌋ :=
      Int.floor_nonneg.mpr (mul_nonneg hth0.le hr.le)
    have hcast : ((⌊(th : ℚ) * ((W : ℚ) / (H : ℚ))⌋.toNat : ℕ) : ℚ)
        = (⌊(th : ℚ) * ((W : ℚ) / (H : ℚ))⌋ : ℚ) := by
      exact_mod_cast congrArg (fun z : ℤ => (z : ℚ)) (Int.toNat_of_nonneg hfl0)
    refine ⟨fun _ => hres, fun hle => absurd hc (not_lt.mpr hle), ?_, ?_, ?_⟩
    · rw [hres]
      have : ⌊(th : ℚ) * ((W : ℚ) / (H : ℚ))⌋ < (tw : ℤ) := by
        rw [Int.floor_lt]
        push_cast
        linarith
      exact Int.toNat_le.mpr this.le
    · rw [hres]
    · left
      rw [hres]
      constructor
      · simpa [hcast] using Int.floor_le ((th : ℚ) * ((W : ℚ) / (H : ℚ)))
      · have := Int.lt_floor_add_one ((th : ℚ) * ((W : ℚ) / (H : ℚ)))
        simpa [hcast] using this
  · have hle : (tw : ℚ) / (th : ℚ) ≤ (W : ℚ) / (H : ℚ) := not_lt.mp hc
    have hres : resizeDims W H tw th
        = (tw, (⌊(tw : ℚ) / ((W : ℚ) / (H : ℚ))⌋).toNat) := by
      simp [resizeDims, hdiv, hc, goTrunc_of_nonneg (div_nonneg htw0.le hr.le)]
    have hq : (tw : ℚ) / ((W : ℚ) / (H : ℚ)) ≤ th := by
      rw [div_le_div_iff₀ hth0 hH0] at hle
      rw [div_le_iff₀ hr]
      have h2 : (th : ℚ) * ((W : ℚ) / (H : ℚ)) = (th : ℚ) * (W : ℚ) / (H : ℚ) := by
        ring
      rw [h2, le_div_iff₀ hH0]
      linarith
    have hfl0 : (0 : ℤ) ≤ ⌊(tw : ℚ) / ((W : ℚ) / (H : ℚ))⌋ :=
      Int.floor_nonneg.mpr (div_nonneg htw0.le hr.le)
    have hcast : ((⌊(tw : ℚ) / ((W : ℚ) / (H : ℚ))⌋.toNat : ℕ) : ℚ)
        = (⌊(tw : ℚ) / ((W : ℚ) / (H : ℚ))⌋ : ℚ) := by
      exact_mod_cast congrArg (fun z : ℤ => (z : ℚ)) (Int.toNat_of_nonneg hfl0)
    refine ⟨fun hlt => absurd hlt (not_lt.mpr hle), fun _ => hres, ?_, ?_, ?_⟩
    · rw [hres]
    · rw [hres]
      have : ⌊(tw : ℚ) / ((W : ℚ) / (H : ℚ))⌋ ≤ (th : ℤ) := by
        have := Int.floor_le_floor hq
        rwa [Int.floor_natCast] at this
      exact Int.toNat_le.mpr this
    · right
      rw [hres]
      constructor
      · simpa [hcast] using Int.floor_le ((tw : ℚ) / ((W : ℚ) / (H : ℚ)))
      · have := Int.lt_floor_add_one ((tw : ℚ) / ((W : ℚ) / (H : ℚ)))
        simpa [hcast] using this

/-- C4 (witness): the amended resize theorem applied to a 100×100 source and
an 800×600 target, where the height binds and the output is 600×600. -/
theorem resizeDims_spec_witness :
    resizeDims 100 100 800 600 = ((⌊(600 : ℚ) * ((100 : ℚ) / (100 : ℚ))⌋).toNat, 600) ∧
    (resizeDims 100 100 800 600).1 ≤ 800 ∧ (resizeDims 100 100 800 600).2 ≤ 600 := by
  have h := resizeDims_spec 100 100 800 600 (by decide) (by decide) (by decide) (by decide)
  exact ⟨h.1 (by norm_num), h.2.2.1, h.2.2.2.1⟩

theorem resizeCore_th_zero (W H tw : ℕ) (htw : 0 < tw) :
    ResizeImageCore W H tw 0 = Except.ok (0, 0) := by
  have hdiv : divGTratio tw 0 ((W : ℚ) / (H : ℚ)) = true := by
    unfold divGTratio
    simp [htw]
  simp [ResizeImageCore, resizeDims, hdiv, goTrunc]

theorem resizeCore_tw_zero (W H th : ℕ) (hW : 0 < W) (hH : 0 < H) :
    ResizeImageCore W H 0 th = Except.ok (0, 0) := by
  have hr : (0 : ℚ) ≤ (W : ℚ) / (H : ℚ) := by positivity
  by_cases hth : th = 0
  · subst hth
    have hdiv : divGTratio 0 0 ((W : ℚ) / (H : ℚ)) = false := by
      unfold divGTratio
      simp
    simp [ResizeImageCore, resizeDims, hdiv, goTrunc]
  · have hdiv : divGTratio 0 th ((W : ℚ) / (H : ℚ)) = false := by
      unfold divGTratio
      rw [if_neg hth]
      simp [not_lt.mpr hr]
    simp [ResizeImageCore, resizeDims, hdiv, goTrunc]

/-- C3 (counterexample): `ResizeImage` with target height 0 does not reject:
IEEE division makes the height branch win and the computed dimensions are
(0, 0), returned as a success; concatenating an empty list likewise
succeeds with a degenerate 0×0 output. -/
theorem resize_concat_no_reject_counterexample :
    ResizeImageCore 100 100 800 0 = Except.ok (0, 0) ∧
    ConcatenateImagesVerticallyCore [] = Except.ok (0, 0) ∧
    ConcatenateImagesHorizontallyCore [] = Except.ok (0, 0) :=
  ⟨resizeCore_th_zero 100 100 800 (by decide), rfl, rfl⟩

/-- C3 (amended): the geometry core of `ResizeImage` and of the two
concatenation operations performs no input validation at all: a zero target
dimension yields a degenerate (0, 0) result and an empty input list yields a
0×0 output, always as a success value — errors arise only at the I/O and
codec boundary. -/
theorem resize_concat_no_validation :
    (∀ W H tw, 0 < W → 0 < H → 0 < tw →
      ResizeImageCore W H tw 0 = Except.ok (0, 0)) ∧
    (∀ W H th, 0 < W → 0 < H →
      ResizeImageCore W H 0 th = Except.ok (0, 0)) ∧
    ConcatenateImagesVerticallyCore [] = Except.ok (0, 0) ∧
    ConcatenateImagesHorizontallyCore [] = Except.ok (0, 0) :=
  ⟨fun W H tw _ _ htw => resizeCore_th_zero W H tw htw,
   fun W H th hW hH => resizeCore_tw_zero W H th hW hH, rfl, rfl⟩

/-- C3 (witness): the no-validation theorem applied at concrete degenerate
inputs. -/
theorem resize_concat_no_validation_witness :
    ResizeImageCore 50 60 70 0 = Except.ok (0, 0) ∧
    ResizeImageCore 50 60 0 70 = Except.ok (0, 0) := by
  have h := resize_concat_no_validation
  exact ⟨h.1 50 60 70 (by decide) (by decide) (by decide),
    h.2.1 50 60 70 (by decide) (by decide)⟩

/-!
### Concatenation dimensions against the specification formulas

Specification-side formulations, built with `List.map`, list maxima and
list sums rather than the code's incremental folds, compared against the
embedded cores.
-/

/-- Vertical concatenation as the specification words it: maximum input
width; every input resized to that width preserving its own aspect ratio
(resized height `maxW·h/w` rounded down); output height the sum of resized
heights in input order. -/
def vertDimsSpec (ds : List (ℕ × ℕ)) : ℕ × ℕ :=
  ((ds.map Prod.fst).foldr max 0,
   (ds.map (fun p => (ds.map Prod.fst).foldr max 0 * p.2 / p.1)).sum)

/-- Horizontal mirror of `vertDimsSpec`: maximum height binds, widths are
resized and summed left-to-right. -/
def horizDimsSpec (ds : List (ℕ × ℕ)) : ℕ × ℕ :=
  ((ds.map (fun p => (ds.map Prod.snd).foldr max 0 * p.1 / p.2)).sum,
   (ds.map Prod.snd).foldr max 0)

theorem foldl_if_max {α : Type} (f : α → ℕ) (ds : List α) (a : ℕ) :
    ds.foldl (fun m p => if f p > m then f p else m) a
      = max a ((ds.map f).foldr max 0) := by
  induction ds generalizing a with
  | nil => simp
  | cons p t ih =>
    simp only [List.foldl_cons, List.map_cons, List.foldr_cons]
    rw [ih]
    have hstep : (if f p > a then f p else a) = max a (f p) := by
      rcases le_or_lt (f p) a with h | h
      · rw [if_neg (not_lt.mpr h), max_eq_left h]
      · rw [if_pos h, max_eq_right h.le]
    rw [hstep, max_assoc]

theorem foldl_add_sum {α : Type} (f : α → ℕ) (ds : List α) (a : ℕ) :
    ds.foldl (fun t p => t + f p) a = a + (ds.map f).sum := by
  induction ds generalizing a with
  | nil => simp
  | cons p t ih =>
    simp only [List.foldl_cons, List.map_cons, List.sum_cons]
    rw [ih]
    omega

theorem concatVHeight_eq (maxW : ℕ) (p : ℕ × ℕ) (hw : 0 < p.1) (hh : 0 < p.2) :
    concatVHeight maxW p = maxW * p.2 / p.1 := by
  unfold concatVHeight
  have hw0 : (0 : ℚ) < (p.1 : ℚ) := by exact_mod_cast hw
  have hh0 : (0 : ℚ) < (p.2 : ℚ) := by exact_mod_cast hh
  have he : (maxW : ℚ) / ((p.1 : ℚ) / (p.2 : ℚ))
      = ((maxW * p.2 : ℕ) : ℚ) / ((p.1 : ℕ) : ℚ) := by
    push_cast
    field_simp
  rw [he, goTrunc_of_nonneg (by positivity), Int.floor_toNat]
  exact Nat.floor_div_nat _ _

theorem concatHWidth_eq (maxH : ℕ) (p : ℕ × ℕ) (hw : 0 < p.1) (hh : 0 < p.2) :
    concatHWidth maxH p = maxH * p.1 / p.2 := by
  unfold concatHWidth
  have hw0 : (0 : ℚ) < (p.1 : ℚ) := by exact_mod_cast hw
  have hh0 : (0 : ℚ) < (p.2 : ℚ) := by exact_mod_cast hh
  have he : (maxH : ℚ) * ((p.1 : ℚ) / (p.2 : ℚ))
      = ((maxH * p.1 : ℕ) : ℚ) / ((p.2 : ℕ) : ℚ) := by
    push_cast
    field_simp
  rw [he, goTrunc_of_nonneg (by positivity), Int.floor_toNat]
  exact Nat.floor_div_nat _ _

/-- C8: for at least two positive-dimension inputs, the vertical
concatenation core produces width = max input width and height = sum of the
aspect-preserving resized heights in input order; the horizontal core is
the exact mirror. -/
theorem concat_dims_spec (ds : List (ℕ × ℕ)) (hlen : 2 ≤ ds.length)
    (hpos : ∀ p ∈ ds, 0 < p.1 ∧ 0 < p.2) :
    concatVDims ds = vertDimsSpec ds ∧ concatHDims ds = horizDimsSpec ds := by
  have hmaxV : concatVMaxWidth ds = (ds.map Prod.fst).foldr max 0 := by
    unfold concatVMaxWidth
    rw [foldl_if_max Prod.fst ds 0]
    omega
  have hmaxH : concatHMaxHeight ds = (ds.map Prod.snd).foldr max 0 := by
    unfold concatHMaxHeight
    rw [foldl_if_max Prod.snd ds 0]
    omega
  constructor
  · unfold concatVDims vertDimsSpec
    rw [foldl_add_sum (concatVHeight (concatVMaxWidth ds)) ds 0, zero_add, hmaxV]
    refine Prod.ext rfl ?_
    show ((ds.map (concatVHeight ((ds.map Prod.fst).foldr max 0))).sum = _)
    congr 1
    apply List.map_congr_left
    intro p hp
    exact concatVHeight_eq _ p (hpos p hp).1 (hpos p hp).2
  · unfold concatHDims horizDimsSpec
    rw [foldl_add_sum (concatHWidth (concatHMaxHeight ds)) ds 0, zero_add, hmaxH]
    refine Prod.ext ?_ rfl
    show ((ds.map (concatHWidth ((ds.map Prod.snd).foldr max 0))).sum = _)
    congr 1
    apply List.map_congr_left
    intro p hp
    exact concatHWidth_eq _ p (hpos p hp).1 (hpos p hp).2

/-- C8 (witness): two 100×100 inputs concatenate to 100×200 vertically and
to 200×100 horizontally. -/
theorem concat_dims_spec_witness :
    concatVDims [(100, 100), (100, 100)] = (100, 200) ∧
    concatHDims [(100, 100), (100, 100)] = (200, 100) := by
  have h := concat_dims_spec [(100, 100), (100, 100)] (by decide) (by decide)
  rw [h.1, h.2]
  exact ⟨by decide, by decide⟩

/-!
### Rotation (`RotateImage` / `rotateImage` / `rotatedSize` / `rotatePoint`,
processor.go lines 797-871 and 1444-1481)

The values of `math.Sin(radians)` and `math.Cos(radians)` are abstracted as
`ℚ` parameters `sinR`, `cosR` (every concrete `float64` value is a
rational).  `rotatePoint` is invoked with the negated angle, for which IEEE
evaluation gives exactly `cos(-r) = cosR` and `sin(-r) = -sinR`.  At an
angle of exactly 0 degrees the Go code computes `radians = 0` and
`math.Cos(0) = 1`, `math.Sin(0) = 0` bit-exactly, so instantiating
`(cosR, sinR) = (1, 0)` models that call faithfully; exact trigonometry
gives the same parameter values at 360 degrees.
-/

def rotatedSize (w h : ℕ) (sinR cosR : ℚ) : ℤ × ℤ :=
  (goTrunc ((w : ℚ) * |cosR| + (h : ℚ) * |sinR|),
   goTrunc ((w : ℚ) * |sinR| + (h : ℚ) * |cosR|))

def rotatePoint (x y : ℚ) (c s : ℚ) : ℚ × ℚ :=
  (x * c - y * s, x * s + y * c)

/-- The rotation loop: a fresh `newW × newH` buffer; each destination pixel
is mapped through the inverse rotation about the image centers, and copies
the source pixel (nearest by truncation) when the mapped point lands inside
the source bounds, else keeps the zero pixel of the fresh RGBA buffer. -/
def rotateImage (img : RGBAImage) (cosR sinR : ℚ) : RGBAImage :=
  let w := img.w
  let h := img.h
  let newW := (rotatedSize w h sinR cosR).1.toNat
  let newH := (rotatedSize w h sinR cosR).2.toNat
  ⟨newW, newH, fun x y =>
    if x < newW ∧ y < newH then
      let p := rotatePoint ((x : ℚ) - (newW : ℚ) / 2) ((y : ℚ) - (newH : ℚ) / 2) cosR (-sinR)
      let xr := p.1 + (w : ℚ) / 2
      let yr := p.2 + (h : ℚ) / 2
      if 0 ≤ xr ∧ xr < (w : ℚ) ∧ 0 ≤ yr ∧ yr < (h : ℚ) then
        img.pix (goTrunc xr).toNat (goTrunc yr).toNat
      else
        ⟨0, 0, 0, 0⟩
    else
      ⟨0, 0, 0, 0⟩⟩

/-- C5 (amended theorem): rotation by exactly 0 degrees — Go computes
`radians = 0·π/180 = 0` and then `math.Cos(0) = 1`, `math.Sin(0) = 0`
bit-exactly — keeps the bounding box exactly equal to the input's
dimensions (a difference of 0, within the claim's ≤ 1 tolerance) and
copies every pixel unchanged.  The 360-degree half of the original claim
is false in the code: see the counterexample below. -/
theorem rotate_zero_identity (img : RGBAImage) :
    (rotateImage img 1 0).w = img.w ∧ (rotateImage img 1 0).h = img.h ∧
    ∀ x y, x < img.w → y < img.h →
      (rotateImage img 1 0).pix x y = img.pix x y := by
  have h1 : (rotatedSize img.w img.h 0 1).1.toNat = img.w := by
    simp [rotatedSize, goTrunc_natCast]
  have h2 : (rotatedSize img.w img.h 0 1).2.toNat = img.h := by
    simp [rotatedSize, goTrunc_natCast]
  have hpoint : ∀ a b : ℚ, rotatePoint a b 1 (-0) = (a, b) := by
    intro a b
    simp [rotatePoint]
  refine ⟨h1, h2, ?_⟩
  intro x y hx hy
  have hxq : (0 : ℚ) ≤ (x : ℚ) := Nat.cast_nonneg x
  have hyq : (0 : ℚ) ≤ (y : ℚ) := Nat.cast_nonneg y
  have hxw : (x : ℚ) < (img.w : ℚ) := by exact_mod_cast hx
  have hyh : (y : ℚ) < (img.h : ℚ) := by exact_mod_cast hy
  simp only [rotateImage, hpoint, h1, h2]
  rw [if_pos ⟨hx, hy⟩]
  have ex : (x : ℚ) - (img.w : ℚ) / 2 + (img.w : ℚ) / 2 = (x : ℚ) := by ring
  have ey : (y : ℚ) - (img.h : ℚ) / 2 + (img.h : ℚ) / 2 = (y : ℚ) := by ring
  rw [ex, ey, if_pos ⟨hxq, hxw, hyq, hyh⟩, goTrunc_natCast, goTrunc_natCast]
  simp

/-- Concrete 2×1 buffer used as a rotation witness. -/
def imgA : RGBAImage :=
  ⟨2, 1, fun x _ => if x = 0 then ⟨10, 20, 30, 255⟩ else ⟨200, 150, 100, 255⟩⟩

/-- C5 (witness): the zero-angle rotation theorem applied to a concrete 2×1
buffer. -/
theorem rotate_zero_identity_witness :
    (rotateImage imgA 1 0).w = 2 ∧ (rotateImage imgA 1 0).h = 1 ∧
    (rotateImage imgA 1 0).pix 1 0 = imgA.pix 1 0 := by
  have h := rotate_zero_identity imgA
  exact ⟨h.1, h.2.1, h.2.2 1 0 (by decide) (by decide)⟩

/-- Concrete 1×1 buffer with a nonzero pixel, used to refute the
360-degree half of the no-op claim. -/
def imgR : RGBAImage := ⟨1, 1, fun _ _ => ⟨7, 7, 7, 255⟩⟩

/-- At 360 degrees Go computes `radians = 360·π/180`, whose `float64`
sine is small and *negative* (≈ −2.4493·10⁻¹⁶), not 0.  For every
negative sine parameter `s` with `-1 < s < 0` (and cosine 1), destination
pixel (0, 0) of a 1×1 image maps to `yr = s/2 < 0`, outside the source
bounds, so the rotation loop never writes it and it keeps the zero pixel
of the fresh buffer instead of the source pixel. -/
theorem rotate_neg_sin_drops_pixel (s : ℚ) (h0 : -1 < s) (h1 : s < 0) :
    (rotateImage imgR 1 s).pix 0 0 = ⟨0, 0, 0, 0⟩ := by
  have habs : |s| = -s := abs_of_neg h1
  have habs1 : |(1 : ℚ)| = 1 := abs_of_pos one_pos
  have harg : ((imgR.w : ℚ)) * |(1 : ℚ)| + ((imgR.h : ℚ)) * |s| = 1 + -s := by
    show ((1 : ℕ) : ℚ) * |(1 : ℚ)| + ((1 : ℕ) : ℚ) * |s| = 1 + -s
    rw [habs, habs1]
    push_cast
    ring
  have harg2 : ((imgR.w : ℚ)) * |s| + ((imgR.h : ℚ)) * |(1 : ℚ)| = 1 + -s := by
    show ((1 : ℕ) : ℚ) * |s| + ((1 : ℕ) : ℚ) * |(1 : ℚ)| = 1 + -s
    rw [habs, habs1]
    push_cast
    ring
  have hfloor : ⌊(1 : ℚ) + -s⌋ = 1 :=
    Int.floor_eq_iff.mpr ⟨by push_cast; linarith, by push_cast; linarith⟩
  have hg : goTrunc ((1 : ℚ) + -s) = 1 := by
    unfold goTrunc
    rw [if_pos (by linarith : (0 : ℚ) ≤ 1 + -s), hfloor]
  have hW : (rotatedSize imgR.w imgR.h s 1).1.toNat = 1 := by
    show (goTrunc (((imgR.w : ℚ)) * |(1 : ℚ)| + ((imgR.h : ℚ)) * |s|)).toNat = 1
    rw [harg, hg]
    rfl
  have hH : (rotatedSize imgR.w imgR.h s 1).2.toNat = 1 := by
    show (goTrunc (((imgR.w : ℚ)) * |s| + ((imgR.h : ℚ)) * |(1 : ℚ)|)).toNat = 1
    rw [harg2, hg]
    rfl
  simp only [rotateImage, hW, hH]
  rw [if_pos (by norm_num : (0 : ℕ) < 1 ∧ (0 : ℕ) < 1)]
  split_ifs with hcon
  · exfalso
    obtain ⟨-, -, hy, -⟩ := hcon
    simp only [rotatePoint] at hy
    push_cast at hy
    have hh1 : ((imgR.h : ℕ) : ℚ) = 1 := by norm_num [imgR]
    rw [hh1] at hy
    nlinarith
  · rfl

/-- The IEEE-754 `float64` sine at the radians value Go computes for 360
degrees: `sin(6.283185307179586…)` correctly rounded is
`−4967757600021511·2⁻¹⁰⁴ ≈ −2.4492935982947064·10⁻¹⁶` (Go's portable
`math.Sin` agrees with this to a few last-place units; the refutation
below only uses that every such value lies in (−1, 0)). -/
def sin360 : ℚ := -(4967757600021511 : ℚ) / 2 ^ 104

/-- C5 (counterexample): rotating a 1×1 buffer by 360 degrees with the
actual `float64` trigonometric values (cosine 1, the nonzero negative
sine) does *not* reproduce the source pixel: pixel (0, 0) maps just
outside the source bounds and comes back as the zero pixel, refuting the
claimed pixel-for-pixel identity at 360 degrees. -/
theorem rotate_360_counterexample :
    (rotateImage imgR 1 sin360).pix 0 0 ≠ imgR.pix 0 0 := by
  rw [rotate_neg_sin_drops_pixel sin360 (by norm_num [sin360])
    (by norm_num [sin360])]
  decide

/-!
### Grayscale conversion and Sobel edge detection
(`DetectEdges`, processor.go lines 1585-1643; internal `detectEdges`,
lines 1484-1520)

`color.GrayModel.Convert` on an 8-bit RGBA pixel computes
`y = (19595·r + 38470·g + 7471·b + 2¹⁵) >> 24` on the 16-bit channel values
`r = R·257` etc.  Both Sobel routines convert to gray, then scan interior
pixels only (the 1-pixel border ring of the fresh gray output buffer stays
zero).  The internal `detectEdges` stores
`uint8(math.Min(sqrt(gx²+gy²), 255))` — a clamp — while the public
`DetectEdges` stores `uint8(math.Sqrt(float64(gx*gx+gy*gy)))`, a raw
conversion that wraps modulo 256 on mainstream Go targets once the
magnitude exceeds 255.  `math.Sqrt` is correctly rounded, so truncating it
to an integer yields the floor square root.
-/

def grayVal (c : RGBA) : ℕ :=
  (19595 * (c.r * 257) + 38470 * (c.g * 257) + 7471 * (c.b * 257) + 32768) >>> 24

def grayOf (img : RGBAImage) : GrayImage :=
  ⟨img.w, img.h, fun x y => if x < img.w ∧ y < img.h then grayVal (img.pix x y) else 0⟩

def sobelGx (g : GrayImage) (x y : ℕ) : ℤ :=
  -1 * (g.pix (x - 1) (y - 1) : ℤ) + 1 * (g.pix (x + 1) (y - 1) : ℤ)
    + -2 * (g.pix (x - 1) y : ℤ) + 2 * (g.pix (x + 1) y : ℤ)
    + -1 * (g.pix (x - 1) (y + 1) : ℤ) + 1 * (g.pix (x + 1) (y + 1) : ℤ)

def sobelGy (g : GrayImage) (x y : ℕ) : ℤ :=
  -1 * (g.pix (x - 1) (y - 1) : ℤ) + 1 * (g.pix (x - 1) (y + 1) : ℤ)
    + -2 * (g.pix x (y - 1) : ℤ) + 2 * (g.pix x (y + 1) : ℤ)
    + -1 * (g.pix (x + 1) (y - 1) : ℤ) + 1 * (g.pix (x + 1) (y + 1) : ℤ)

/-- Raw gradient magnitude truncated to an integer:
`int(math.Sqrt(gx²+gy²))` is the floor square root. -/
def sobelMag (g : GrayImage) (x y : ℕ) : ℕ :=
  Nat.sqrt (sobelGx g x y * sobelGx g x y + sobelGy g x y * sobelGy g x y).toNat

/-- The public `DetectEdges`: no clamp, the `uint8` conversion wraps the
magnitude modulo 256. -/
def DetectEdgesImage (img : RGBAImage) : GrayImage :=
  let g := grayOf img
  ⟨img.w, img.h, fun x y =>
    if 1 ≤ x ∧ x + 1 < img.w ∧ 1 ≤ y ∧ y + 1 < img.h then
      sobelMag g x y % 256
    else 0⟩

/-- The internal `detectEdges` used by `AutoRotateImage`:
`uint8(math.Min(magnitude, 255))`, a genuine clamp. -/
def detectEdgesAuto (img : RGBAImage) : GrayImage :=
  let g := grayOf img
  ⟨img.w, img.h, fun x y =>
    if 1 ≤ x ∧ x + 1 < img.w ∧ 1 ≤ y ∧ y + 1 < img.h then
      min (sobelMag g x y) 255
    else 0⟩

/-!
### Median denoising (`DenoiseImage` / `medianFilter`, processor.go
lines 740-792)

`DenoiseImage` loops over every pixel of the bounds — including the border
ring — and calls `medianFilter`, which samples the full 3×3 neighborhood
through `img.At`; on an RGBA buffer `At` returns the zero pixel outside the
bounds, so border windows are zero-padded.  The per-channel lists of 9
samples are sorted (`sort.Ints`) and index 4 is taken; the output alpha is
the constant 255.
-/

def pixZ (img : RGBAImage) (x y : ℤ) : RGBA :=
  if 0 ≤ x ∧ x < (img.w : ℤ) ∧ 0 ≤ y ∧ y < (img.h : ℤ) then
    img.pix x.toNat y.toNat
  else
    ⟨0, 0, 0, 0⟩

/-- The 3×3 neighborhood samples in the loop order of `medianFilter`
(`dy` outer, `dx` inner). -/
def nbhd (img : RGBAImage) (x y : ℤ) : List RGBA :=
  ([-1, 0, 1] : List ℤ).flatMap (fun dy =>
    ([-1, 0, 1] : List ℤ).map (fun dx => pixZ img (x + dx) (y + dy)))

/-- Element at index 4 of the ascending sort: the `r[4]` of the Go code. -/
def sortedFifth (l : List ℕ) : ℕ :=
  (l.insertionSort (· ≤ ·)).getD 4 0

def medianFilterAt (img : RGBAImage) (x y : ℤ) : RGBA :=
  ⟨sortedFifth ((nbhd img x y).map RGBA.r), sortedFifth ((nbhd img x y).map RGBA.g),
   sortedFifth ((nbhd img x y).map RGBA.b), 255⟩

def DenoiseImage (img : RGBAImage) : RGBAImage :=
  ⟨img.w, img.h, fun x y =>
    if x < img.w ∧ y < img.h then medianFilterAt img (x : ℤ) (y : ℤ)
    else ⟨0, 0, 0, 0⟩⟩

/-- For a list of 9 values, the 5th of the sorted samples is a member and
is a median: at least 5 samples are ≤ it and at least 5 samples are ≥ it. -/
theorem median9_spec (l : List ℕ) (h9 : l.length = 9) :
    sortedFifth l ∈ l ∧
    5 ≤ l.countP (fun v => decide (v ≤ sortedFifth l)) ∧
    5 ≤ l.countP (fun v => decide (sortedFifth l ≤ v)) := by
  set s := l.insertionSort (· ≤ ·) with hs
  have hperm : s.Perm l := List.perm_insertionSort (· ≤ ·) l
  have hlen : s.length = 9 := by rw [hperm.length_eq, h9]
  have hsorted : s.Sorted (· ≤ ·) := List.sorted_insertionSort (· ≤ ·) l
  have h4 : 4 < s.length := by omega
  have hgetD : sortedFifth l = s[4] := by
    unfold sortedFifth
    rw [← hs]
    exact List.getD_eq_getElem s 0 h4
  have hdec : s = s.take 4 ++ s[4] :: s.drop 5 := by
    conv_lhs => rw [← List.take_append_drop 4 s]
    rw [List.drop_eq_getElem_cons h4]
  have hpw : (s.take 4 ++ s[4] :: s.drop 5).Pairwise (· ≤ ·) := by
    rw [← hdec]
    exact hsorted
  rw [List.pairwise_append] at hpw
  obtain ⟨hpw1, hpw2, hcross⟩ := hpw
  have hle : ∀ v ∈ s.take 4, v ≤ s[4] := fun v hv =>
    hcross v hv s[4] (List.mem_cons_self _ _)
  have hge : ∀ v ∈ s.drop 5, s[4] ≤ v := (List.pairwise_cons.mp hpw2).1
  have hlt4 : (s.take 4).length = 4 := by
    rw [List.length_take]
    omega
  have hld5 : (s.drop 5).length = 4 := by
    rw [List.length_drop]
    omega
  rw [hgetD]
  refine ⟨hperm.subset (List.getElem_mem h4), ?_, ?_⟩
  · have hcnt : l.countP (fun v => decide (v ≤ s[4]))
        = s.countP (fun v => decide (v ≤ s[4])) :=
      (hperm.countP_eq (fun v => decide (v ≤ s[4]))).symm
    rw [hcnt]
    have hsplit : s.countP (fun v => decide (v ≤ s[4]))
        = (s.take 4).countP (fun v => decide (v ≤ s[4]))
          + (s[4] :: s.drop 5).countP (fun v => decide (v ≤ s[4])) := by
      have hc := congrArg (List.countP (fun v => decide (v ≤ s[4]))) hdec
      rw [List.countP_append] at hc
      exact hc
    have htake : (s.take 4).countP (fun v => decide (v ≤ s[4])) = 4 := by
      rw [List.countP_eq_length.mpr fun a ha => decide_eq_true (hle a ha)]
      exact hlt4
    have hcons : 1 ≤ (s[4] :: s.drop 5).countP (fun v => decide (v ≤ s[4])) := by
      rw [List.countP_cons]
      simp
    omega
  · have hcnt : l.countP (fun v => decide (s[4] ≤ v))
        = s.countP (fun v => decide (s[4] ≤ v)) :=
      (hperm.countP_eq (fun v => decide (s[4] ≤ v))).symm
    rw [hcnt]
    have hsplit : s.countP (fun v => decide (s[4] ≤ v))
        = (s.take 4).countP (fun v => decide (s[4] ≤ v))
          + (s[4] :: s.drop 5).countP (fun v => decide (s[4] ≤ v)) := by
      have hc := congrArg (List.countP (fun v => decide (s[4] ≤ v))) hdec
      rw [List.countP_append] at hc
      exact hc
    have hcons : (s[4] :: s.drop 5).countP (fun v => decide (s[4] ≤ v)) = 5 := by
      rw [List.countP_cons,
        List.countP_eq_length.mpr fun a ha => decide_eq_true (hge a ha)]
      simp [hld5]
    omega

theorem nbhd_map_length (img : RGBAImage) (x y : ℤ) (ch : RGBA → ℕ) :
    ((nbhd img x y).map ch).length = 9 := by
  simp [nbhd]

/-- C6 (amended): `DenoiseImage` filters every pixel, border included, over
the zero-padded 3×3 neighborhood: each output channel is the 5th of the 9
sorted per-channel samples (hence a member of the samples and a median of
them), and the output alpha is the constant 255 rather than the source
alpha. -/
theorem denoise_median_alpha_spec (img : RGBAImage) (x y : ℕ)
    (hx : x < img.w) (hy : y < img.h) :
    (DenoiseImage img).pix x y
      = ⟨sortedFifth ((nbhd img (x : ℤ) (y : ℤ)).map RGBA.r),
         sortedFifth ((nbhd img (x : ℤ) (y : ℤ)).map RGBA.g),
         sortedFifth ((nbhd img (x : ℤ) (y : ℤ)).map RGBA.b), 255⟩ ∧
    (sortedFifth ((nbhd img (x : ℤ) (y : ℤ)).map RGBA.r)
        ∈ (nbhd img (x : ℤ) (y : ℤ)).map RGBA.r ∧
      5 ≤ ((nbhd img (x : ℤ) (y : ℤ)).map RGBA.r).countP
            (fun v => decide (v ≤ sortedFifth ((nbhd img (x : ℤ) (y : ℤ)).map RGBA.r))) ∧
      5 ≤ ((nbhd img (x : ℤ) (y : ℤ)).map RGBA.r).countP
            (fun v => decide (sortedFifth ((nbhd img (x : ℤ) (y : ℤ)).map RGBA.r) ≤ v))) ∧
    (sortedFifth ((nbhd img (x : ℤ) (y : ℤ)).map RGBA.g)
        ∈ (nbhd img (x : ℤ) (y : ℤ)).map RGBA.g ∧
      5 ≤ ((nbhd img (x : ℤ) (y : ℤ)).map RGBA.g).countP
            (fun v => decide (v ≤ sortedFifth ((nbhd img (x : ℤ) (y : ℤ)).map RGBA.g))) ∧
      5 ≤ ((nbhd img (x : ℤ) (y : ℤ)).map RGBA.g).countP
            (fun v => decide (sortedFifth ((nbhd img (x : ℤ) (y : ℤ)).map RGBA.g) ≤ v))) ∧
    (sortedFifth ((nbhd img (x : ℤ) (y : ℤ)).map RGBA.b)
        ∈ (nbhd img (x : ℤ) (y : ℤ)).map RGBA.b ∧
      5 ≤ ((nbhd img (x : ℤ) (y : ℤ)).map RGBA.b).countP
            (fun v => decide (v ≤ sortedFifth ((nbhd img (x : ℤ) (y : ℤ)).map RGBA.b))) ∧
      5 ≤ ((nbhd img (x : ℤ) (y : ℤ)).map RGBA.b).countP
            (fun v => decide (sortedFifth ((nbhd img (x : ℤ) (y : ℤ)).map RGBA.b) ≤ v))) := by
  have hpix : (DenoiseImage img).pix x y = medianFilterAt img (x : ℤ) (y : ℤ) := by
    simp only [DenoiseImage]
    rw [if_pos ⟨hx, hy⟩]
  exact ⟨hpix,
    median9_spec _ (nbhd_map_length img _ _ RGBA.r),
    median9_spec _ (nbhd_map_length img _ _ RGBA.g),
    median9_spec _ (nbhd_map_length img _ _ RGBA.b)⟩

/-- Concrete uniform 3×3 buffer (with a non-255 alpha) exposing border
filtering. -/
def imgU : RGBAImage :=
  ⟨3, 3, fun _ _ => ⟨100, 100, 100, 177⟩⟩

/-- C6 (counterexample): the corner pixel of a uniform 3×3 image is not
copied untouched — its zero-padded window has median 0 per channel and the
alpha is forced to 255, so the output corner differs from the source
corner. -/
theorem denoise_border_counterexample :
    (DenoiseImage imgU).pix 0 0 ≠ imgU.pix 0 0 := by decide

/-- C6 (witness): the amended median/alpha theorem applied at the interior
pixel (1,1) of the concrete uniform buffer. -/
theorem denoise_median_alpha_spec_witness :
    (DenoiseImage imgU).pix 1 1
      = ⟨sortedFifth ((nbhd imgU 1 1).map RGBA.r),
         sortedFifth ((nbhd imgU 1 1).map RGBA.g),
         sortedFifth ((nbhd imgU 1 1).map RGBA.b), 255⟩ ∧
    (DenoiseImage imgU).pix 1 1 = ⟨100, 100, 100, 255⟩ :=
  ⟨(denoise_median_alpha_spec imgU 1 1 (by decide) (by decide)).1, by decide⟩

/-- Concrete 3×3 buffer with a black-to-white vertical boundary: the Sobel
magnitude at the center is 1020. -/
def edgeCaseImg : RGBAImage :=
  ⟨3, 3, fun x _ => if x = 2 then ⟨255, 255, 255, 255⟩ else ⟨0, 0, 0, 255⟩⟩

/-- C7: the internal edge map is clamped to 255 everywhere, but the public
`DetectEdges` is not: at the center of a sharp black/white boundary the raw
magnitude is 1020, the internal map stores 255, and the public operation
stores 1020 mod 256 = 252 — the pixel value wraps. -/
theorem detectEdges_clamp_divergence :
    (∀ img x y, (detectEdgesAuto img).pix x y ≤ 255) ∧
    sobelMag (grayOf edgeCaseImg) 1 1 = 1020 ∧
    (detectEdgesAuto edgeCaseImg).pix 1 1 = 255 ∧
    (DetectEdgesImage edgeCaseImg).pix 1 1 = 252 := by
  have hg1 : sobelGx (grayOf edgeCaseImg) 1 1 = 1020 := by decide
  have hg2 : sobelGy (grayOf edgeCaseImg) 1 1 = 0 := by decide
  have hmag : sobelMag (grayOf edgeCaseImg) 1 1 = 1020 := by
    unfold sobelMag
    rw [hg1, hg2]
    have h : ((1020 * 1020 + 0 * 0 : ℤ)).toNat = 1020 ^ 2 := by decide
    rw [h, Nat.sqrt_eq']
  refine ⟨?_, hmag, ?_, ?_⟩
  · intro img x y
    simp only [detectEdgesAuto]
    split
    · exact min_le_right _ _
    · omega
  · simp only [detectEdgesAuto]
    rw [if_pos (by decide), hmag]
    decide
  · simp only [DetectEdgesImage]
    rw [if_pos (by decide), hmag]

/-!
### Otsu threshold (`otsuThreshold`, processor.go lines 932-961) and
binarization (`BinarizeImage`, lines 876-930)

`otsuThreshold` scans t = 0..255 over the 256-bin histogram with running
background weight `wB` and sum `sumB`; `continue` on `wB == 0` and `break`
on `wF == 0` are modelled by the guard order of `otsuStep` and its
`stopped` flag.  The `float64` arithmetic of the means and the
between-class variance is modelled exactly over `ℚ`; `stepVar` is the
`varBetween` expression of the loop body.
-/

structure OtsuState where
  sumB : ℕ
  wB : ℕ
  varMax : ℚ
  threshold : ℕ
  stopped : Bool
deriving DecidableEq

/-- The `sum` accumulated before the loop: `Σ i·histogram[i]`. -/
def otsuSum (hist : ℕ → ℕ) : ℕ :=
  (List.range 256).foldl (fun s i => s + i * hist i) 0

/-- The `varBetween = wB·wF·(mB−mF)·(mB−mF)` expression of the loop body,
on the updated `wB = s.wB + hist t` and `sumB = s.sumB + t·hist t`. -/
def stepVar (hist : ℕ → ℕ) (total : ℤ) (sum : ℕ) (s : OtsuState) (t : ℕ) : ℚ :=
  ((s.wB + hist t : ℕ) : ℚ) * ((total - ((s.wB + hist t : ℕ) : ℤ) : ℤ) : ℚ)
    * (((s.sumB + t * hist t : ℕ) : ℚ) / ((s.wB + hist t : ℕ) : ℚ)
       - ((sum : ℚ) - ((s.sumB + t * hist t : ℕ) : ℚ))
         / ((total - ((s.wB + hist t : ℕ) : ℤ) : ℤ) : ℚ))
    * (((s.sumB + t * hist t : ℕ) : ℚ) / ((s.wB + hist t : ℕ) : ℚ)
       - ((sum : ℚ) - ((s.sumB + t * hist t : ℕ) : ℚ))
         / ((total - ((s.wB + hist t : ℕ) : ℤ) : ℤ) : ℚ))

/-- One iteration of the threshold scan. -/
def otsuStep (hist : ℕ → ℕ) (total : ℤ) (sum : ℕ) (s : OtsuState) (t : ℕ) :
    OtsuState :=
  if s.stopped = true then s
  else if s.wB + hist t = 0 then { s with wB := s.wB + hist t }
  else if total - ((s.wB + hist t : ℕ) : ℤ) = 0 then
    { s with wB := s.wB + hist t, stopped := true }
  else if stepVar hist total sum s t > s.varMax then
    ⟨s.sumB + t * hist t, s.wB + hist t, stepVar hist total sum s t, t, false⟩
  else
    ⟨s.sumB + t * hist t, s.wB + hist t, s.varMax, s.threshold, false⟩

def otsuInit : OtsuState := ⟨0, 0, 0, 0, false⟩

def otsuFoldAux (hist : ℕ → ℕ) (total : ℤ) (n : ℕ) : OtsuState :=
  (List.range n).foldl (otsuStep hist total (otsuSum hist)) otsuInit

def otsuThreshold (hist : ℕ → ℕ) (total : ℤ) : ℕ :=
  (otsuFoldAux hist total 256).threshold

/-- Division-guarded variant of `otsuStep`: returns `none` whenever a
division by zero would be performed by the loop body, i.e. whenever `wB` or
`wF` is zero at one of the two division sites. -/
def otsuStepChecked (hist : ℕ → ℕ) (total : ℤ) (sum : ℕ) (s : OtsuState) (t : ℕ) :
    Option OtsuState :=
  if s.stopped = true then some s
  else if s.wB + hist t = 0 then some { s with wB := s.wB + hist t }
  else if total - ((s.wB + hist t : ℕ) : ℤ) = 0 then
    some { s with wB := s.wB + hist t, stopped := true }
  else if (((s.wB + hist t : ℕ) : ℚ)) = 0 then none
  else if (((total - ((s.wB + hist t : ℕ) : ℤ) : ℤ) : ℚ)) = 0 then none
  else if stepVar hist total sum s t > s.varMax then
    some ⟨s.sumB + t * hist t, s.wB + hist t, stepVar hist total sum s t, t, false⟩
  else
    some ⟨s.sumB + t * hist t, s.wB + hist t, s.varMax, s.threshold, false⟩

def otsuThresholdChecked (hist : ℕ → ℕ) (total : ℤ) : Option ℕ :=
  ((List.range 256).foldl
      (fun os t => os.bind fun s => otsuStepChecked hist total (otsuSum hist) s t)
      (some otsuInit)).map OtsuState.threshold

theorem otsuStepChecked_eq (hist : ℕ → ℕ) (total : ℤ) (sum : ℕ)
    (s : OtsuState) (t : ℕ) :
    otsuStepChecked hist total sum s t = some (otsuStep hist total sum s t) := by
  unfold otsuStepChecked otsuStep
  by_cases hs : s.stopped = true
  · rw [if_pos hs, if_pos hs]
  · rw [if_neg hs, if_neg hs]
    by_cases h0 : s.wB + hist t = 0
    · rw [if_pos h0, if_pos h0]
    · rw [if_neg h0, if_neg h0]
      by_cases h1 : total - ((s.wB + hist t : ℕ) : ℤ) = 0
      · rw [if_pos h1, if_pos h1]
      · rw [if_neg h1, if_neg h1,
          if_neg (by exact_mod_cast h0), if_neg (by exact_mod_cast h1)]
        by_cases h2 : stepVar hist total sum s t > s.varMax
        · rw [if_pos h2, if_pos h2]
        · rw [if_neg h2, if_neg h2]

theorem otsuThresholdChecked_eq (hist : ℕ → ℕ) (total : ℤ) :
    otsuThresholdChecked hist total = some (otsuThreshold hist total) := by
  unfold otsuThresholdChecked otsuThreshold otsuFoldAux
  have key : ∀ (l : List ℕ) (s : OtsuState),
      l.foldl (fun os t => os.bind fun s => otsuStepChecked hist total (otsuSum hist) s t)
          (some s)
        = some (l.foldl (otsuStep hist total (otsuSum hist)) s) := by
    intro l
    induction l with
    | nil => intro s; rfl
    | cons t ts ih =>
      intro s
      simp only [List.foldl_cons]
      have hstep : ((some s).bind fun s' => otsuStepChecked hist total (otsuSum hist) s' t)
          = some (otsuStep hist total (otsuSum hist) s t) :=
        otsuStepChecked_eq hist total (otsuSum hist) s t
      rw [hstep]
      exact ih _
  rw [key]
  rfl

/-!
### Characterization of the Otsu scan: cumulative weights, candidate
thresholds, and first-maximum selection
-/

/-- Cumulative histogram weight `wB` after processing bins `0..n-1`. -/
def cumW (hist : ℕ → ℕ) (n : ℕ) : ℕ :=
  ((List.range n).map hist).sum

/-- Cumulative weighted sum `sumB` after processing bins `0..n-1`. -/
def cumS (hist : ℕ → ℕ) (n : ℕ) : ℕ :=
  ((List.range n).map (fun i => i * hist i)).sum

theorem cumW_succ (hist : ℕ → ℕ) (n : ℕ) :
    cumW hist (n + 1) = cumW hist n + hist n := by
  unfold cumW
  rw [List.range_succ, List.map_append, List.sum_append]
  simp

theorem cumS_succ (hist : ℕ → ℕ) (n : ℕ) :
    cumS hist (n + 1) = cumS hist n + n * hist n := by
  unfold cumS
  rw [List.range_succ, List.map_append, List.sum_append]
  simp

theorem cumW_mono (hist : ℕ → ℕ) {n m : ℕ} (h : n ≤ m) :
    cumW hist n ≤ cumW hist m := by
  induction m with
  | zero =>
    have hn : n = 0 := by omega
    subst hn
    exact le_refl _
  | succ m ih =>
    by_cases hn : n ≤ m
    · refine le_trans (ih hn) ?_
      rw [cumW_succ]
      omega
    · have hn1 : n = m + 1 := by omega
      subst hn1
      exact le_refl _

theorem otsuSum_eq (hist : ℕ → ℕ) : otsuSum hist = cumS hist 256 := by
  unfold otsuSum cumS
  rw [foldl_add_sum (fun i => i * hist i) (List.range 256) 0, Nat.zero_add]

/-- Between-class variance of threshold `t`, as the claim words it:
`wB·wF·(meanB−meanF)²` with `wB = cumW (t+1)`, `wF = total − wB`,
`meanB = cumS (t+1)/wB` and `meanF = (sum − cumS (t+1))/wF`. -/
def otsuVar (hist : ℕ → ℕ) (total : ℤ) (t : ℕ) : ℚ :=
  (cumW hist (t + 1) : ℚ) * ((total - (cumW hist (t + 1) : ℤ) : ℤ) : ℚ)
    * ((cumS hist (t + 1) : ℚ) / (cumW hist (t + 1) : ℚ)
       - ((cumS hist 256 : ℚ) - (cumS hist (t + 1) : ℚ))
         / ((total - (cumW hist (t + 1) : ℤ) : ℤ) : ℚ))
    * ((cumS hist (t + 1) : ℚ) / (cumW hist (t + 1) : ℚ)
       - ((cumS hist 256 : ℚ) - (cumS hist (t + 1) : ℚ))
         / ((total - (cumW hist (t + 1) : ℤ) : ℤ) : ℚ))

/-- The thresholds actually scored by the scan: those with a nonzero
background weight reached before the foreground weight runs out. -/
def otsuCand (hist : ℕ → ℕ) (total : ℤ) (n : ℕ) : List ℕ :=
  (List.range n).filter
    (fun t => decide (0 < cumW hist (t + 1)) && decide ((cumW hist (t + 1) : ℤ) < total))

/-- Strict-maximum tracking fold: the `if v > best then update` pattern of
both the Otsu scan and the Hough vote scan. -/
def bestFold {α β γ : Type} [LinearOrder β] (v : α → β) (g : α → γ)
    (init : β × γ) (l : List α) : β × γ :=
  l.foldl (fun q c => if v c > q.1 then (v c, g c) else q) init

theorem bestFold_append_single {α β γ : Type} [LinearOrder β] (v : α → β)
    (g : α → γ) (init : β × γ) (l : List α) (c : α) :
    bestFold v g init (l ++ [c])
      = (if v c > (bestFold v g init l).1 then (v c, g c) else bestFold v g init l) := by
  unfold bestFold
  rw [List.foldl_append]
  rfl

/-- Characterization of the strict-maximum fold: the tracked value bounds
every scanned value, and either nothing ever exceeded the initial value, or
the result is the first element attaining the running maximum (elements
scanned before it are strictly below it). -/
theorem bestFold_spec {α β γ : Type} [LinearOrder β] (v : α → β) (g : α → γ)
    (z : β) (d : γ) (l : List α) :
    (∀ a ∈ l, v a ≤ (bestFold v g (z, d) l).1) ∧
    z ≤ (bestFold v g (z, d) l).1 ∧
    (bestFold v g (z, d) l = (z, d) ∨
      ∃ l₁ a l₂, l = l₁ ++ a :: l₂ ∧ bestFold v g (z, d) l = (v a, g a) ∧
        z < v a ∧ ∀ b ∈ l₁, v b < v a) := by
  induction l using List.reverseRecOn with
  | nil =>
    refine ⟨by simp, ?_, Or.inl rfl⟩
    exact le_refl _
  | append_singleton l c ih =>
    obtain ⟨ih1, ih2, ih3⟩ := ih
    rw [bestFold_append_single]
    by_cases hc : v c > (bestFold v g (z, d) l).1
    · rw [if_pos hc]
      refine ⟨?_, le_of_lt (lt_of_le_of_lt ih2 hc),
        Or.inr ⟨l, c, [], rfl, rfl, lt_of_le_of_lt ih2 hc, ?_⟩⟩
      · intro a ha
        rcases List.mem_append.mp ha with h | h
        · exact le_of_lt (lt_of_le_of_lt (ih1 a h) hc)
        · rw [List.mem_singleton.mp h]
      · intro b hb
        exact lt_of_le_of_lt (ih1 b hb) hc
    · rw [if_neg hc]
      push_neg at hc
      refine ⟨?_, ih2, ?_⟩
      · intro a ha
        rcases List.mem_append.mp ha with h | h
        · exact ih1 a h
        · rw [List.mem_singleton.mp h]
          exact hc
      · rcases ih3 with h | ⟨l₁, a, l₂, hl, hr, hz, hlt⟩
        · left
          exact h
        · right
          exact ⟨l₁, a, l₂ ++ [c], by rw [hl]; simp, hr, hz, hlt⟩

/-- Loop invariant of the Otsu scan: while not stopped, `wB`/`sumB` are the
cumulative weight and weighted sum; the scan stops exactly when some
processed threshold consumed all the mass; and the tracked
(varMax, threshold) pair is the strict-maximum fold of the between-class
variance over the candidate thresholds scanned so far. -/
theorem otsu_invariant (hist : ℕ → ℕ) (total : ℤ)
    (htot : total = (cumW hist 256 : ℤ)) :
    ∀ n, n ≤ 256 →
      ((otsuFoldAux hist total n).stopped = false →
        (otsuFoldAux hist total n).wB = cumW hist n ∧
        (otsuFoldAux hist total n).sumB = cumS hist n) ∧
      ((otsuFoldAux hist total n).stopped = true ↔
        ∃ t, t < n ∧ 0 < cumW hist (t + 1) ∧ (cumW hist (t + 1) : ℤ) = total) ∧
      ((otsuFoldAux hist total n).varMax, (otsuFoldAux hist total n).threshold)
        = bestFold (otsuVar hist total) id (0, 0) (otsuCand hist total n) := by
  intro n
  induction n with
  | zero =>
    intro _
    refine ⟨fun _ => ⟨rfl, rfl⟩, ?_, rfl⟩
    constructor
    · intro h
      exact absurd h Bool.false_ne_true
    · rintro ⟨t, ht, -, -⟩
      omega
  | succ n ih =>
    intro hn
    have hn' : n ≤ 256 := by omega
    obtain ⟨ih1, ih2, ih3⟩ := ih hn'
    have hfold : otsuFoldAux hist total (n + 1)
        = otsuStep hist total (otsuSum hist) (otsuFoldAux hist total n) n := by
      unfold otsuFoldAux
      rw [List.range_succ, List.foldl_append]
      rfl
    set s := otsuFoldAux hist total n with hsdef
    by_cases hs : s.stopped = true
    · -- already stopped: the step is the identity, no new candidate
      have hstep : otsuStep hist total (otsuSum hist) s n = s := by
        unfold otsuStep
        rw [if_pos hs]
      obtain ⟨t0, ht0n, ht0pos, ht0eq⟩ := ih2.mp hs
      have hnotlt : ¬((cumW hist (n + 1) : ℤ) < total) := by
        have hm : cumW hist (t0 + 1) ≤ cumW hist (n + 1) := cumW_mono hist (by omega)
        rw [← ht0eq]
        exact not_lt.mpr (by exact_mod_cast hm)
      have hcand : otsuCand hist total (n + 1) = otsuCand hist total n := by
        unfold otsuCand
        rw [List.range_succ, List.filter_append]
        have hone : (List.filter
            (fun t => decide (0 < cumW hist (t + 1)) && decide ((cumW hist (t + 1) : ℤ) < total))
            [n]) = [] := by
          simp [hnotlt]
        rw [hone, List.append_nil]
      rw [hfold, hstep]
      refine ⟨?_, ?_, ?_⟩
      · intro hf
        rw [hf] at hs
        exact absurd hs (by decide)
      · constructor
        · intro _
          exact ⟨t0, by omega, ht0pos, ht0eq⟩
        · intro _
          exact hs
      · rw [hcand]
        exact ih3
    · have hs' : s.stopped = false := by
        cases hb : s.stopped
        · rfl
        · exact absurd hb hs
      obtain ⟨hwB, hsumB⟩ := ih1 hs'
      have hcw : s.wB + hist n = cumW hist (n + 1) := by
        rw [cumW_succ, hwB]
      have hcs : s.sumB + n * hist n = cumS hist (n + 1) := by
        rw [cumS_succ, hsumB]
      have hnoexist : ¬∃ t, t < n ∧ 0 < cumW hist (t + 1) ∧ (cumW hist (t + 1) : ℤ) = total := by
        intro hex
        have := ih2.mpr hex
        rw [hs'] at this
        exact absurd this (by decide)
      by_cases h0 : s.wB + hist n = 0
      · -- continue branch: wB still zero, nothing scored
        have hstep : otsuStep hist total (otsuSum hist) s n = { s with wB := s.wB + hist n } := by
          unfold otsuStep
          rw [if_neg (by simp [hs']), if_pos h0]
        have hcwz : cumW hist (n + 1) = 0 := by omega
        have hhz : hist n = 0 := by omega
        have hcand : otsuCand hist total (n + 1) = otsuCand hist total n := by
          unfold otsuCand
          rw [List.range_succ, List.filter_append]
          have hone : (List.filter
              (fun t => decide (0 < cumW hist (t + 1)) && decide ((cumW hist (t + 1) : ℤ) < total))
              [n]) = [] := by
            simp [hcwz]
          rw [hone, List.append_nil]
        have hsum0 : s.sumB = cumS hist (n + 1) := by
          rw [hsumB, cumS_succ, hhz]
          omega
        rw [hfold, hstep]
        refine ⟨?_, ?_, ?_⟩
        · intro _
          exact ⟨hcw, hsum0⟩
        · constructor
          · intro h
            have h2 : s.stopped = true := h
            rw [hs'] at h2
            exact absurd h2 Bool.false_ne_true
          · rintro ⟨t, htn, htpos, hteq⟩
            by_cases htn' : t < n
            · exact absurd ⟨t, htn', htpos, hteq⟩ hnoexist
            · have htn2 : t = n := by omega
              subst htn2
              rw [hcwz] at htpos
              exact absurd htpos (by decide)
        · rw [hcand]
          exact ih3
      · by_cases h1 : total - ((s.wB + hist n : ℕ) : ℤ) = 0
        · -- break branch: all mass consumed, stop scanning
          have hstep : otsuStep hist total (otsuSum hist) s n
              = { s with wB := s.wB + hist n, stopped := true } := by
            unfold otsuStep
            rw [if_neg (by simp [hs']), if_neg h0, if_pos h1]
          have hteqn : (cumW hist (n + 1) : ℤ) = total := by
            rw [← hcw]
            omega
          have hcand : otsuCand hist total (n + 1) = otsuCand hist total n := by
            unfold otsuCand
            rw [List.range_succ, List.filter_append]
            have hone : (List.filter
                (fun t => decide (0 < cumW hist (t + 1)) && decide ((cumW hist (t + 1) : ℤ) < total))
                [n]) = [] := by
              simp [hteqn]
            rw [hone, List.append_nil]
          rw [hfold, hstep]
          refine ⟨?_, ?_, ?_⟩
          · intro h
            have h2 : true = false := h
            exact Bool.noConfusion h2
          · constructor
            · intro _
              exact ⟨n, by omega, by omega, hteqn⟩
            · intro _
              rfl
          · rw [hcand]
            exact ih3
        · -- scoring branch: n is a candidate, tracked pair steps
          have hstep : otsuStep hist total (otsuSum hist) s n
              = (if stepVar hist total (otsuSum hist) s n > s.varMax then
                  (⟨s.sumB + n * hist n, s.wB + hist n,
                    stepVar hist total (otsuSum hist) s n, n, false⟩ : OtsuState)
                 else
                  ⟨s.sumB + n * hist n, s.wB + hist n, s.varMax, s.threshold, false⟩) := by
            unfold otsuStep
            rw [if_neg (by simp [hs']), if_neg h0, if_neg h1]
          have hvar : stepVar hist total (otsuSum hist) s n = otsuVar hist total n := by
            unfold stepVar otsuVar
            rw [otsuSum_eq, hcw, hcs]
          have hpos : 0 < cumW hist (n + 1) := by omega
          have hlt : (cumW hist (n + 1) : ℤ) < total := by
            have hle : cumW hist (n + 1) ≤ cumW hist 256 := cumW_mono hist (by omega)
            have hle' : (cumW hist (n + 1) : ℤ) ≤ (cumW hist 256 : ℤ) := by exact_mod_cast hle
            rw [← htot] at hle'
            have h1' : total - (cumW hist (n + 1) : ℤ) ≠ 0 := by
              rw [← hcw]
              exact h1
            omega
          have hcand : otsuCand hist total (n + 1) = otsuCand hist total n ++ [n] := by
            unfold otsuCand
            rw [List.range_succ, List.filter_append]
            have hone : (List.filter
                (fun t => decide (0 < cumW hist (t + 1)) && decide ((cumW hist (t + 1) : ℤ) < total))
                [n]) = [n] := by
              simp [hpos, hlt]
            rw [hone]
          have hnostep : ¬∃ t, t < n + 1 ∧ 0 < cumW hist (t + 1) ∧ (cumW hist (t + 1) : ℤ) = total := by
            rintro ⟨t, htn, htpos, hteq⟩
            by_cases htn' : t < n
            · exact absurd ⟨t, htn', htpos, hteq⟩ hnoexist
            · have htn2 : t = n := by omega
              subst htn2
              omega
          rw [hfold, hstep]
          by_cases hv : stepVar hist total (otsuSum hist) s n > s.varMax
          · rw [if_pos hv]
            refine ⟨fun _ => ⟨hcw, hcs⟩, ?_, ?_⟩
            · constructor
              · intro h
                have h2 : false = true := h
                exact absurd h2 Bool.false_ne_true
              · intro hex
                exact absurd hex hnostep
            · rw [hcand, bestFold_append_single, ← ih3, if_pos (hvar ▸ hv)]
              rw [hvar]
              rfl
          · rw [if_neg hv]
            refine ⟨fun _ => ⟨hcw, hcs⟩, ?_, ?_⟩
            · constructor
              · intro h
                have h2 : false = true := h
                exact absurd h2 Bool.false_ne_true
              · intro hex
                exact absurd hex hnostep
            · rw [hcand, bestFold_append_single, ← ih3, if_neg (hvar ▸ hv)]

/-!
### Histogram construction, grayscale range and `BinarizeImage`
-/

theorem foldl_incr_count {κ : Type} [DecidableEq κ] (l : List (ℕ × ℕ))
    (key : (ℕ × ℕ) → κ) (f0 : κ → ℕ) (v : κ) :
    (l.foldl (fun f p => fun x => if x = key p then f x + 1 else f x) f0) v
      = f0 v + l.countP (fun p => decide (key p = v)) := by
  induction l generalizing f0 with
  | nil => simp
  | cons p t ih =>
    simp only [List.foldl_cons, List.countP_cons]
    rw [ih]
    by_cases h : key p = v
    · simp [h]
      omega
    · have h2 : ¬v = key p := fun hh => h hh.symm
      simp [h, h2]

/-- The histogram accumulation loop of `BinarizeImage`:
`histogram[grayColor.Y]++` over the pixel scan. -/
def histOf (g : GrayImage) : ℕ → ℕ :=
  (pixelList g.w g.h).foldl
    (fun f p => fun v => if v = g.pix p.1 p.2 then f v + 1 else f v)
    (fun _ => 0)

theorem histOf_eq_countP (g : GrayImage) (v : ℕ) :
    histOf g v = (pixelList g.w g.h).countP (fun p => decide (g.pix p.1 p.2 = v)) := by
  unfold histOf
  rw [foldl_incr_count (pixelList g.w g.h) (fun p => g.pix p.1 p.2) (fun _ => 0) v,
    Nat.zero_add]

theorem list_sum_map_add {α : Type} (f₁ f₂ : α → ℕ) (l : List α) :
    (l.map (fun v => f₁ v + f₂ v)).sum = (l.map f₁).sum + (l.map f₂).sum := by
  induction l with
  | nil => rfl
  | cons a t ih =>
    simp only [List.map_cons, List.sum_cons, ih]
    omega

theorem list_sum_single_hit (k n : ℕ) :
    ((List.range n).map (fun v => if k = v then 1 else 0)).sum
      = if k < n then 1 else 0 := by
  induction n with
  | zero => simp
  | succ n ih =>
    rw [List.range_succ, List.map_append, List.sum_append, ih]
    simp only [List.map_cons, List.map_nil, List.sum_cons, List.sum_nil]
    split_ifs <;> omega

theorem list_sum_const {α : Type} (l : List α) (w : ℕ) :
    (l.map (fun _ => w)).sum = l.length * w := by
  induction l with
  | nil => simp
  | cons a t ih =>
    simp only [List.map_cons, List.sum_cons, List.length_cons, ih]
    ring

theorem count_partition (g : GrayImage) (l : List (ℕ × ℕ))
    (hb : ∀ p ∈ l, g.pix p.1 p.2 < 256) :
    ((List.range 256).map
        (fun v => l.countP (fun p => decide (g.pix p.1 p.2 = v)))).sum
      = l.length := by
  induction l with
  | nil =>
    have h0 : ((List.range 256).map
        (fun v => ([] : List (ℕ × ℕ)).countP (fun p => decide (g.pix p.1 p.2 = v))))
        = (List.range 256).map (fun _ => 0) := rfl
    rw [h0, list_sum_const]
    simp
  | cons p t ih =>
    have hform : ((List.range 256).map
        (fun v => (p :: t).countP (fun q => decide (g.pix q.1 q.2 = v)))).sum
        = ((List.range 256).map
            (fun v => t.countP (fun q => decide (g.pix q.1 q.2 = v))
              + (if g.pix p.1 p.2 = v then 1 else 0))).sum := by
      congr 1
      apply List.map_congr_left
      intro v _
      rw [List.countP_cons]
      congr 1
      by_cases hv : g.pix p.1 p.2 = v
      · rw [if_pos (decide_eq_true hv), if_pos hv]
      · rw [if_neg (by simpa using hv), if_neg hv]
    rw [hform, list_sum_map_add,
      ih (fun q hq => hb q (List.mem_cons_of_mem p hq)), list_sum_single_hit]
    have hk : g.pix p.1 p.2 < 256 := hb p (List.mem_cons_self p t)
    rw [if_pos hk]
    simp [List.length_cons]

theorem pixelList_length (w h : ℕ) : (pixelList w h).length = w * h := by
  unfold pixelList
  rw [List.length_flatMap]
  have hmap : ((List.range h).map (List.length ∘ fun y => (List.range w).map (fun x => (x, y))))
      = (List.range h).map (fun _ => w) := by
    apply List.map_congr_left
    intro y _
    simp [Function.comp]
  rw [hmap, list_sum_const, List.length_range, Nat.mul_comm]

theorem pixelList_mem {w h : ℕ} {p : ℕ × ℕ} (hp : p ∈ pixelList w h) :
    p.1 < w ∧ p.2 < h := by
  unfold pixelList at hp
  simp only [List.mem_flatMap, List.mem_map, List.mem_range] at hp
  obtain ⟨y, hy, x, hx, rfl⟩ := hp
  exact ⟨hx, hy⟩

theorem grayVal_le (c : RGBA) (hr : c.r ≤ 255) (hg : c.g ≤ 255) (hb : c.b ≤ 255) :
    grayVal c ≤ 255 := by
  unfold grayVal
  rw [Nat.shiftRight_eq_div_pow]
  have hnum : 19595 * (c.r * 257) + 38470 * (c.g * 257) + 7471 * (c.b * 257) + 32768
      ≤ 4294934528 := by
    omega
  calc (19595 * (c.r * 257) + 38470 * (c.g * 257) + 7471 * (c.b * 257) + 32768) / 2 ^ 24
      ≤ 4294934528 / 2 ^ 24 := Nat.div_le_div_right hnum
    _ = 255 := by norm_num

theorem grayOf_lt (img : RGBAImage)
    (hch : ∀ x y, x < img.w → y < img.h →
      (img.pix x y).r ≤ 255 ∧ (img.pix x y).g ≤ 255 ∧ (img.pix x y).b ≤ 255) :
    ∀ p ∈ pixelList (grayOf img).w (grayOf img).h,
      (grayOf img).pix p.1 p.2 < 256 := by
  intro p hp
  obtain ⟨hx, hy⟩ := pixelList_mem hp
  show (if p.1 < img.w ∧ p.2 < img.h then grayVal (img.pix p.1 p.2) else 0) < 256
  rw [if_pos ⟨hx, hy⟩]
  obtain ⟨h1, h2, h3⟩ := hch p.1 p.2 hx hy
  have := grayVal_le (img.pix p.1 p.2) h1 h2 h3
  omega

theorem histOf_total (g : GrayImage)
    (hb : ∀ p ∈ pixelList g.w g.h, g.pix p.1 p.2 < 256) :
    cumW (histOf g) 256 = g.w * g.h := by
  unfold cumW
  have hmap : (List.range 256).map (histOf g)
      = (List.range 256).map
          (fun v => (pixelList g.w g.h).countP (fun p => decide (g.pix p.1 p.2 = v))) := by
    apply List.map_congr_left
    intro v _
    exact histOf_eq_countP g v
  rw [hmap, count_partition g (pixelList g.w g.h) hb, pixelList_length]

/-- The thresholding pass of `BinarizeImage`: gray conversion plus
histogram feed `otsuThreshold` with `total = Dx·Dy`, then each pixel
becomes white (255) exactly when its gray value strictly exceeds the
threshold, else black (0). -/
def BinarizeImage (img : RGBAImage) : GrayImage :=
  ⟨img.w, img.h, fun x y =>
    if x < img.w ∧ y < img.h then
      (if otsuThreshold (histOf (grayOf img)) ((img.w * img.h : ℕ) : ℤ)
          < (grayOf img).pix x y then 255 else 0)
    else 0⟩

set_option maxRecDepth 4096 in
/-- C1: binarization writes white exactly on gray values strictly above the
Otsu threshold, and the Otsu threshold is characterized as the claim states
it: among the scanned candidate thresholds (nonzero background weight,
before the foreground weight runs out), it attains the maximum
between-class variance, and every earlier candidate is strictly below it
(the strict `>` keeps the first maximizer); when no candidate has positive
variance the threshold stays at its initial value 0. -/
theorem binarize_otsu_first_max (img : RGBAImage)
    (hch : ∀ x y, x < img.w → y < img.h →
      (img.pix x y).r ≤ 255 ∧ (img.pix x y).g ≤ 255 ∧ (img.pix x y).b ≤ 255) :
    (∀ x y, x < img.w → y < img.h →
      (BinarizeImage img).pix x y
        = if otsuThreshold (histOf (grayOf img)) ((img.w * img.h : ℕ) : ℤ)
             < (grayOf img).pix x y then 255 else 0) ∧
    ((∃ t ∈ otsuCand (histOf (grayOf img)) ((img.w * img.h : ℕ) : ℤ) 256,
        0 < otsuVar (histOf (grayOf img)) ((img.w * img.h : ℕ) : ℤ) t) →
      otsuThreshold (histOf (grayOf img)) ((img.w * img.h : ℕ) : ℤ)
          ∈ otsuCand (histOf (grayOf img)) ((img.w * img.h : ℕ) : ℤ) 256 ∧
      (∀ t ∈ otsuCand (histOf (grayOf img)) ((img.w * img.h : ℕ) : ℤ) 256,
        otsuVar (histOf (grayOf img)) ((img.w * img.h : ℕ) : ℤ) t
          ≤ otsuVar (histOf (grayOf img)) ((img.w * img.h : ℕ) : ℤ)
              (otsuThreshold (histOf (grayOf img)) ((img.w * img.h : ℕ) : ℤ))) ∧
      (∀ t ∈ otsuCand (histOf (grayOf img)) ((img.w * img.h : ℕ) : ℤ) 256,
        t < otsuThreshold (histOf (grayOf img)) ((img.w * img.h : ℕ) : ℤ) →
        otsuVar (histOf (grayOf img)) ((img.w * img.h : ℕ) : ℤ) t
          < otsuVar (histOf (grayOf img)) ((img.w * img.h : ℕ) : ℤ)
              (otsuThreshold (histOf (grayOf img)) ((img.w * img.h : ℕ) : ℤ)))) ∧
    ((∀ t ∈ otsuCand (histOf (grayOf img)) ((img.w * img.h : ℕ) : ℤ) 256,
        otsuVar (histOf (grayOf img)) ((img.w * img.h : ℕ) : ℤ) t ≤ 0) →
      otsuThreshold (histOf (grayOf img)) ((img.w * img.h : ℕ) : ℤ) = 0) := by
  set hist := histOf (grayOf img) with hhist
  set tot : ℤ := ((img.w * img.h : ℕ) : ℤ) with htotdef
  have htot : tot = (cumW hist 256 : ℤ) := by
    have h := histOf_total (grayOf img) (grayOf_lt img hch)
    rw [hhist, h]
    exact htotdef
  obtain ⟨-, -, inv3⟩ := otsu_invariant hist tot htot 256 (le_refl 256)
  obtain ⟨bf1, bf2, bf3⟩ := bestFold_spec (otsuVar hist tot) id (0 : ℚ) (0 : ℕ)
    (otsuCand hist tot 256)
  have hTdef : otsuThreshold hist tot = (otsuFoldAux hist tot 256).threshold := rfl
  have hr2 : (otsuFoldAux hist tot 256).threshold
      = (bestFold (otsuVar hist tot) id (0, 0) (otsuCand hist tot 256)).2 :=
    congrArg Prod.snd inv3
  refine ⟨?_, ?_, ?_⟩
  · intro x y hx hy
    show (if x < img.w ∧ y < img.h then _ else _) = _
    rw [if_pos ⟨hx, hy⟩]
  · rintro ⟨t0, ht0mem, ht0pos⟩
    rcases bf3 with hz | ⟨l₁, a, l₂, hdec, hres, hza, hfirst⟩
    · exfalso
      have hbound := bf1 t0 ht0mem
      rw [hz] at hbound
      exact absurd (lt_of_lt_of_le ht0pos hbound) (lt_irrefl 0)
    · have hTa : otsuThreshold hist tot = a := by
        rw [hTdef, hr2, hres]
        rfl
      have hamem : a ∈ otsuCand hist tot 256 := by
        rw [hdec]
        exact List.mem_append_right _ (List.mem_cons_self a l₂)
      refine ⟨hTa ▸ hamem, ?_, ?_⟩
      · intro t htmem
        have hb := bf1 t htmem
        rw [hres] at hb
        rw [hTa]
        exact hb
      · intro t htmem htlt
        rw [hTa] at htlt ⊢
        have hpair : (otsuCand hist tot 256).Pairwise (· < ·) :=
          List.Pairwise.sublist (List.filter_sublist _) (List.pairwise_lt_range 256)
        rw [hdec] at hpair htmem
        rcases List.mem_append.mp htmem with h | h
        · exact hfirst t h
        · rcases List.mem_cons.mp h with rfl | h2
          · exact absurd htlt (lt_irrefl _)
          · rw [List.pairwise_append] at hpair
            have := (List.pairwise_cons.mp hpair.2.1).1 t h2
            omega
  · intro hall
    rcases bf3 with hz | ⟨l₁, a, l₂, hdec, hres, hza, hfirst⟩
    · rw [hTdef, hr2, hz]
    · exfalso
      have hamem : a ∈ otsuCand hist tot 256 := by
        rw [hdec]
        exact List.mem_append_right _ (List.mem_cons_self a l₂)
      exact absurd (lt_of_lt_of_le hza (hall a hamem)) (lt_irrefl 0)

/-- Concrete 1×1 constant buffer: a degenerate single-peak histogram. -/
def imgC : RGBAImage := ⟨1, 1, fun _ _ => ⟨100, 100, 100, 255⟩⟩

set_option maxRecDepth 16384 in
set_option maxHeartbeats 2000000 in
/-- C1 (witness): on a constant 1×1 buffer the candidate list is empty, the
threshold is the initial 0, and the single pixel (gray 100 > 0) becomes
white. -/
theorem binarize_otsu_first_max_witness :
    otsuThreshold (histOf (grayOf imgC)) ((imgC.w * imgC.h : ℕ) : ℤ) = 0 ∧
    (BinarizeImage imgC).pix 0 0 = 255 := by
  have h := binarize_otsu_first_max imgC
    (fun x y _ _ => by refine ⟨?_, ?_, ?_⟩ <;> norm_num [imgC])
  have hc : otsuCand (histOf (grayOf imgC)) ((imgC.w * imgC.h : ℕ) : ℤ) 256 = [] := by
    decide
  have hT := h.2.2 (by rw [hc]; intro t ht; exact absurd ht (List.not_mem_nil t))
  refine ⟨hT, ?_⟩
  have hb := h.1 0 0 (by decide) (by decide)
  rw [hb, hT, if_pos (by decide : (0 : ℕ) < (grayOf imgC).pix 0 0)]

set_option maxRecDepth 8192 in
/-- C10: for every 256-bin histogram and every total, the division-checked
scan never hits a zero divisor — each division by `wB` is guarded by the
`wB == 0` skip and each division by `wF` by the `wF == 0` break — so the
checked scan always succeeds and agrees with `otsuThreshold`; on the
all-zero histogram with total 0 the threshold is 0. -/
theorem otsu_no_division_by_zero :
    (∀ (hist : ℕ → ℕ) (total : ℤ),
      otsuThresholdChecked hist total = some (otsuThreshold hist total)) ∧
    otsuThreshold (fun _ => 0) 0 = 0 :=
  ⟨otsuThresholdChecked_eq, by decide⟩

/-!
### Hough-transform skew detection (`detectSkewAngle`, processor.go
lines 1396-1441)

The values of `math.Cos(θ·π/180)` and `math.Sin(θ·π/180)` are abstracted
as table parameters `cosT sinT : ℕ → ℚ` (every concrete `float64` value is
a rational, so the actual tables are instances).  `int(rho)` truncates
toward zero, `rhoRange = int(math.Sqrt(w²+h²))` is the floor square root,
and the accumulator is a function of (θ, rhoIndex).
-/

def rhoRangeOf (w h : ℕ) : ℕ := Nat.sqrt (w * w + h * h)

/-- The signed accumulator index `int(rho) + rhoRange` for pixel (x, y) and
angle θ. -/
def rhoIndexZ (cosT sinT : ℕ → ℚ) (R : ℕ) (x y θ : ℕ) : ℤ :=
  goTrunc ((x : ℚ) * cosT θ + (y : ℚ) * sinT θ) + R

/-- The inner θ-loop of the vote pass: for every θ in 0..179, increment the
cell (θ, rhoIndex) when the index is within bounds. -/
def houghAccPixel (cosT sinT : ℕ → ℚ) (R : ℕ) (x y : ℕ)
    (acc : ℕ → ℤ → ℕ) : ℕ → ℤ → ℕ :=
  (List.range 180).foldl
    (fun acc θi =>
      if 0 ≤ rhoIndexZ cosT sinT R x y θi ∧ rhoIndexZ cosT sinT R x y θi < 2 * (R : ℤ) then
        (fun θ2 ρ2 =>
          if θ2 = θi ∧ ρ2 = rhoIndexZ cosT sinT R x y θi then acc θ2 ρ2 + 1 else acc θ2 ρ2)
      else acc)
    acc

/-- The full vote pass: every pixel with gray value strictly above 127
casts its 180 votes; y is the outer loop, x the inner one. -/
def houghAcc (edges : GrayImage) (cosT sinT : ℕ → ℚ) : ℕ → ℤ → ℕ :=
  (pixelList edges.w edges.h).foldl
    (fun acc p =>
      if 127 < edges.pix p.1 p.2 then
        houghAccPixel cosT sinT (rhoRangeOf edges.w edges.h) p.1 p.2 acc
      else acc)
    (fun _ _ => 0)

/-- The selection pass: scan θ outer, ρ inner, tracking the strictly
greatest vote count and its `float64(theta)`. -/
def houghBest (edges : GrayImage) (cosT sinT : ℕ → ℚ) : ℕ × ℚ :=
  (List.range 180).foldl
    (fun q θ =>
      (List.range (2 * rhoRangeOf edges.w edges.h)).foldl
        (fun q (ρ : ℕ) =>
          if houghAcc edges cosT sinT θ (ρ : ℤ) > q.1 then
            (houghAcc edges cosT sinT θ (ρ : ℤ), (θ : ℚ))
          else q)
        q)
    (0, 0)

/-- `detectSkewAngle`: the winning θ, shifted by −180 when above 90. -/
def detectSkewAngle (edges : GrayImage) (cosT sinT : ℕ → ℚ) : ℚ :=
  if (houghBest edges cosT sinT).2 > 90 then (houghBest edges cosT sinT).2 - 180
  else (houghBest edges cosT sinT).2

/-- Specification-side list of accumulator cells in scan order
(θ outer ascending, ρ inner ascending). -/
def houghCells (w h : ℕ) : List (ℕ × ℤ) :=
  (List.range 180).flatMap
    (fun θ => (List.range (2 * rhoRangeOf w h)).map (fun ρ : ℕ => (θ, (ρ : ℤ))))

/-- Specification-side vote count of a cell: the number of pixels whose
gray value strictly exceeds 127 and whose truncated `x·cosθ + y·sinθ` falls
into that ρ bin. -/
def houghVotes (edges : GrayImage) (cosT sinT : ℕ → ℚ) (c : ℕ × ℤ) : ℕ :=
  (pixelList edges.w edges.h).countP
    (fun p => decide (127 < edges.pix p.1 p.2) &&
      decide (rhoIndexZ cosT sinT (rhoRangeOf edges.w edges.h) p.1 p.2 c.1 = c.2))

theorem countP_range_single (n θ : ℕ) (Q : ℕ → Bool) (hθ : θ < n) :
    (List.range n).countP (fun θi => decide (θ = θi) && Q θi)
      = if Q θ = true then 1 else 0 := by
  induction n with
  | zero => omega
  | succ n ih =>
    rw [List.range_succ, List.countP_append]
    by_cases h : θ < n
    · rw [ih h]
      have hn : (List.countP (fun θi => decide (θ = θi) && Q θi) [n]) = 0 := by
        have hne : θ ≠ n := by omega
        simp [hne]
      rw [hn, Nat.add_zero]
    · have hθn : θ = n := by omega
      subst hθn
      have h0 : (List.range θ).countP (fun θi => decide (θ = θi) && Q θi) = 0 := by
        rw [List.countP_eq_zero]
        intro a ha
        simp only [List.mem_range] at ha
        have hne : θ ≠ a := by omega
        simp [hne]
      rw [h0, Nat.zero_add]
      simp only [List.countP_cons, List.countP_nil, Nat.zero_add]
      simp

theorem houghInner_fold (cosT sinT : ℕ → ℚ) (R x y : ℕ) (L : List ℕ) :
    ∀ (acc : ℕ → ℤ → ℕ) (θ : ℕ) (ρ : ℤ),
    (L.foldl
        (fun acc θi =>
          if 0 ≤ rhoIndexZ cosT sinT R x y θi ∧ rhoIndexZ cosT sinT R x y θi < 2 * (R : ℤ) then
            (fun θ2 ρ2 =>
              if θ2 = θi ∧ ρ2 = rhoIndexZ cosT sinT R x y θi then acc θ2 ρ2 + 1 else acc θ2 ρ2)
          else acc)
        acc) θ ρ
      = acc θ ρ + L.countP (fun θi =>
          decide (θ = θi)
            && (decide (0 ≤ rhoIndexZ cosT sinT R x y θi ∧ rhoIndexZ cosT sinT R x y θi < 2 * (R : ℤ))
              && decide (rhoIndexZ cosT sinT R x y θi = ρ))) := by
  induction L with
  | nil =>
    intro acc θ ρ
    simp
  | cons θi L ih =>
    intro acc θ ρ
    simp only [List.foldl_cons, List.countP_cons]
    rw [ih]
    by_cases hg : 0 ≤ rhoIndexZ cosT sinT R x y θi ∧ rhoIndexZ cosT sinT R x y θi < 2 * (R : ℤ)
    · rw [if_pos hg]
      by_cases hθ : θ = θi
      · by_cases hρ : ρ = rhoIndexZ cosT sinT R x y θi
        · rw [if_pos ⟨hθ, hρ⟩]
          have hgρ : (0 : ℤ) ≤ ρ ∧ ρ < 2 * (R : ℤ) := by
            rw [hρ]
            exact hg
          simp [hθ, hρ.symm, hg, hgρ]
          omega
        · rw [if_neg (fun hand => hρ hand.2)]
          have hρ2 : rhoIndexZ cosT sinT R x y θi ≠ ρ := fun hh => hρ hh.symm
          simp [hρ2]
      · rw [if_neg (fun hand => hθ hand.1)]
        simp [hθ]
    · rw [if_neg hg]
      simp [hg]

theorem houghAccPixel_eval (cosT sinT : ℕ → ℚ) (R x y θ : ℕ) (hθ : θ < 180)
    (ρ : ℤ) (hρ0 : 0 ≤ ρ) (hρ2 : ρ < 2 * (R : ℤ)) (acc : ℕ → ℤ → ℕ) :
    houghAccPixel cosT sinT R x y acc θ ρ
      = acc θ ρ + (if rhoIndexZ cosT sinT R x y θ = ρ then 1 else 0) := by
  unfold houghAccPixel
  rw [houghInner_fold cosT sinT R x y (List.range 180) acc θ ρ,
    countP_range_single 180 θ _ hθ]
  congr 1
  by_cases hr : rhoIndexZ cosT sinT R x y θ = ρ
  · rw [if_pos hr]
    have hb : 0 ≤ rhoIndexZ cosT sinT R x y θ ∧ rhoIndexZ cosT sinT R x y θ < 2 * (R : ℤ) := by
      rw [hr]
      exact ⟨hρ0, hρ2⟩
    simp [hb, hr]
    exact ⟨hρ0, hρ2⟩
  · rw [if_neg hr]
    simp [hr]

theorem houghAcc_eval (edges : GrayImage) (cosT sinT : ℕ → ℚ) (θ : ℕ)
    (hθ : θ < 180) (ρ : ℤ) (hρ0 : 0 ≤ ρ)
    (hρ2 : ρ < 2 * (rhoRangeOf edges.w edges.h : ℤ)) :
    houghAcc edges cosT sinT θ ρ = houghVotes edges cosT sinT (θ, ρ) := by
  unfold houghAcc houghVotes
  have main : ∀ (P : List (ℕ × ℕ)) (acc : ℕ → ℤ → ℕ),
      (P.foldl
          (fun acc p =>
            if 127 < edges.pix p.1 p.2 then
              houghAccPixel cosT sinT (rhoRangeOf edges.w edges.h) p.1 p.2 acc
            else acc)
          acc) θ ρ
        = acc θ ρ + P.countP
            (fun p => decide (127 < edges.pix p.1 p.2) &&
              decide (rhoIndexZ cosT sinT (rhoRangeOf edges.w edges.h) p.1 p.2 θ = ρ)) := by
    intro P
    induction P with
    | nil =>
      intro acc
      simp
    | cons p P ih =>
      intro acc
      simp only [List.foldl_cons, List.countP_cons]
      rw [ih]
      by_cases hp : 127 < edges.pix p.1 p.2
      · rw [if_pos hp,
          houghAccPixel_eval cosT sinT (rhoRangeOf edges.w edges.h) p.1 p.2 θ hθ ρ hρ0 hρ2 acc]
        by_cases hr : rhoIndexZ cosT sinT (rhoRangeOf edges.w edges.h) p.1 p.2 θ = ρ
        · simp [hp, hr]
          omega
        · simp [hp, hr]
      · rw [if_neg hp]
        simp [hp]
  rw [main (pixelList edges.w edges.h) (fun _ _ => 0), Nat.zero_add]

theorem foldl_flatMap {α β γ : Type} (l : List α) (f : α → List β)
    (step : γ → β → γ) (init : γ) :
    (l.flatMap f).foldl step init = l.foldl (fun acc a => (f a).foldl step acc) init := by
  induction l generalizing init with
  | nil => rfl
  | cons a t ih =>
    simp only [List.flatMap_cons, List.foldl_append, List.foldl_cons]
    rw [ih]

theorem houghBest_eq_bestFold (edges : GrayImage) (cosT sinT : ℕ → ℚ) :
    houghBest edges cosT sinT
      = bestFold (fun c : ℕ × ℤ => houghAcc edges cosT sinT c.1 c.2)
          (fun c => (c.1 : ℚ)) (0, 0) (houghCells edges.w edges.h) := by
  unfold houghBest bestFold houghCells
  rw [foldl_flatMap]
  congr 1
  funext q θ
  rw [List.foldl_map]

/-- C2: `detectSkewAngle` casts one vote per (above-127 pixel, θ) pair into
the truncated ρ bin, then returns the θ of the first cell (in the θ-outer,
ρ-inner scan order of `houghCells`) attaining the maximum vote count,
shifted by −180 when that θ exceeds 90. -/
theorem detectSkewAngle_spec (edges : GrayImage) (cosT sinT : ℕ → ℚ)
    (hw : 0 < edges.w) (hh : 0 < edges.h) :
    ∃ l₁ c l₂,
      houghCells edges.w edges.h = l₁ ++ c :: l₂ ∧
      (∀ b ∈ houghCells edges.w edges.h,
        houghVotes edges cosT sinT b ≤ houghVotes edges cosT sinT c) ∧
      (∀ b ∈ l₁, houghVotes edges cosT sinT b < houghVotes edges cosT sinT c) ∧
      detectSkewAngle edges cosT sinT
        = (if (c.1 : ℚ) > 90 then (c.1 : ℚ) - 180 else (c.1 : ℚ)) := by
  have hacc : ∀ c ∈ houghCells edges.w edges.h,
      houghAcc edges cosT sinT c.1 c.2 = houghVotes edges cosT sinT c := by
    intro c hc
    unfold houghCells at hc
    rw [List.mem_flatMap] at hc
    obtain ⟨θ, hθmem, hc2⟩ := hc
    rw [List.mem_range] at hθmem
    rw [List.mem_map] at hc2
    obtain ⟨ρ, hρmem, rfl⟩ := hc2
    rw [List.mem_range] at hρmem
    exact houghAcc_eval edges cosT sinT θ hθmem (ρ : ℤ) (Int.natCast_nonneg ρ)
      (by exact_mod_cast hρmem)
  obtain ⟨bf1, bf2, bf3⟩ := bestFold_spec
    (fun c : ℕ × ℤ => houghAcc edges cosT sinT c.1 c.2)
    (fun c => (c.1 : ℚ)) (0 : ℕ) ((0 : ℚ)) (houghCells edges.w edges.h)
  have hresult : detectSkewAngle edges cosT sinT
      = (if (houghBest edges cosT sinT).2 > 90 then (houghBest edges cosT sinT).2 - 180
         else (houghBest edges cosT sinT).2) := rfl
  rcases bf3 with hz | ⟨l₁, c, l₂, hdec, hres, hzc, hfirst⟩
  · -- all cells have zero votes: the initial (0, 0.0) survives, matching
    -- the first cell (0, 0)
    have hR : 1 ≤ rhoRangeOf edges.w edges.h := by
      have h2 : 1 * 1 ≤ edges.w * edges.w + edges.h * edges.h := by
        have := Nat.mul_le_mul hw hw
        omega
      exact Nat.le_sqrt.mpr h2
    obtain ⟨m, hm⟩ : ∃ m, 2 * rhoRangeOf edges.w edges.h = m + 1 :=
      ⟨2 * rhoRangeOf edges.w edges.h - 1, by omega⟩
    have hhead : ∃ rest, houghCells edges.w edges.h = ((0 : ℕ), (0 : ℤ)) :: rest := by
      unfold houghCells
      rw [show (180 : ℕ) = 179 + 1 from rfl, List.range_succ_eq_map,
        List.flatMap_cons, hm, List.range_succ_eq_map, List.map_cons,
        List.cons_append]
      exact ⟨_, rfl⟩
    obtain ⟨rest, hrest⟩ := hhead
    refine ⟨[], ((0 : ℕ), (0 : ℤ)), rest, by rw [hrest]; rfl, ?_, ?_, ?_⟩
    · intro b hb
      have hb0 := bf1 b hb
      rw [hz] at hb0
      have : houghVotes edges cosT sinT b = 0 := by
        rw [← hacc b hb]
        omega
      rw [this]
      exact Nat.zero_le _
    · intro b hb
      exact absurd hb (List.not_mem_nil b)
    · rw [hresult, houghBest_eq_bestFold, hz]
      norm_num
  · refine ⟨l₁, c, l₂, hdec, ?_, ?_, ?_⟩
    · intro b hb
      have hb1 := bf1 b hb
      rw [hres] at hb1
      have hcmem : c ∈ houghCells edges.w edges.h := by
        rw [hdec]
        exact List.mem_append_right _ (List.mem_cons_self c l₂)
      rw [← hacc b hb, ← hacc c hcmem]
      exact hb1
    · intro b hb
      have hbmem : b ∈ houghCells edges.w edges.h := by
        rw [hdec]
        exact List.mem_append_left _ hb
      have hcmem : c ∈ houghCells edges.w edges.h := by
        rw [hdec]
        exact List.mem_append_right _ (List.mem_cons_self c l₂)
      rw [← hacc b hbmem, ← hacc c hcmem]
      exact hfirst b hb
    · rw [hresult, houghBest_eq_bestFold, hres]

/-- Concrete 1×1 edge map (single bright pixel) used as the Hough witness. -/
def edgeW1 : GrayImage := ⟨1, 1, fun _ _ => 200⟩

/-- C2 (witness): the skew-detection theorem applied to a concrete 1×1 edge
map with the constant tables cos = 1, sin = 0. -/
theorem detectSkewAngle_spec_witness :
    ∃ l₁ c l₂,
      houghCells edgeW1.w edgeW1.h = l₁ ++ c :: l₂ ∧
      (∀ b ∈ houghCells edgeW1.w edgeW1.h,
        houghVotes edgeW1 (fun _ => 1) (fun _ => 0) b
          ≤ houghVotes edgeW1 (fun _ => 1) (fun _ => 0) c) ∧
      (∀ b ∈ l₁, houghVotes edgeW1 (fun _ => 1) (fun _ => 0) b
          < houghVotes edgeW1 (fun _ => 1) (fun _ => 0) c) ∧
      detectSkewAngle edgeW1 (fun _ => 1) (fun _ => 0)
        = (if (c.1 : ℚ) > 90 then (c.1 : ℚ) - 180 else (c.1 : ℚ)) :=
  detectSkewAngle_spec edgeW1 (fun _ => 1) (fun _ => 0) (by decide) (by decide)

/-!
### Frame property: outputs are fresh buffers, inputs never written (C9)

The Go operations allocate their outputs with `image.NewRGBA` /
`image.NewGray` (or receive a fresh image from the resize library) and
every `Set` / `draw.Draw` call in the sources names the freshly allocated
buffer; inputs are only read through `At` / `GrayAt`.  To state "the input
buffer is never written", buffers live in an explicit heap of addresses:
an allocation takes the next free address and each write names the address
it mutates, mirroring the buffer each `Set` call in the source names.  An
operation maps the heap to the updated heap plus its output address.  The
resize library is a parameter returning a fresh buffer's contents.
-/

inductive Buf where
  | rgba : RGBAImage → Buf
  | gray : GrayImage → Buf

def bufRGBA (b : Buf) : RGBAImage :=
  match b with
  | .rgba img => img
  | .gray _ => ⟨0, 0, fun _ _ => ⟨0, 0, 0, 0⟩⟩

def bufGray (b : Buf) : GrayImage :=
  match b with
  | .gray g => g
  | .rgba _ => ⟨0, 0, fun _ _ => 0⟩

structure Heap where
  next : ℕ
  buf : ℕ → Buf

/-- `image.NewRGBA` / `image.NewGray`: a fresh buffer at the next free
address. -/
def heapAlloc (H : Heap) (c : Buf) : Heap × ℕ :=
  (⟨H.next + 1, fun a => if a = H.next then c else H.buf a⟩, H.next)

/-- One mutation of the buffer at address `a` (a `Set` call or a bulk
`draw.Draw`). -/
def heapWrite (H : Heap) (a : ℕ) (upd : Buf → Buf) : Heap :=
  ⟨H.next, fun b => if b = a then upd (H.buf b) else H.buf b⟩

/-- `rgba.Set x y c` as a buffer update. -/
def setRGBA (x y : ℕ) (c : RGBA) (b : Buf) : Buf :=
  .rgba ⟨(bufRGBA b).w, (bufRGBA b).h,
    fun x2 y2 => if x2 = x ∧ y2 = y then c else (bufRGBA b).pix x2 y2⟩

/-- `gray.Set x y v` as a buffer update. -/
def setGray (x y v : ℕ) (b : Buf) : Buf :=
  .gray ⟨(bufGray b).w, (bufGray b).h,
    fun x2 y2 => if x2 = x ∧ y2 = y then v else (bufGray b).pix x2 y2⟩

/-- `draw.Draw(dst, Rect(0, y0, src.w, y0+src.h), src, ...)`: stamp `src`
into the RGBA buffer at vertical offset `y0`. -/
def drawAt (srcImg : RGBAImage) (y0 : ℕ) (b : Buf) : Buf :=
  .rgba ⟨(bufRGBA b).w, (bufRGBA b).h,
    fun x y =>
      if y0 ≤ y ∧ y < y0 + srcImg.h ∧ x < srcImg.w then srcImg.pix x (y - y0)
      else (bufRGBA b).pix x y⟩

/-- Allocate a `w×h` RGBA buffer and run the per-pixel `Set` loop on it;
the written value may read the current heap. -/
def allocSetLoopRGBA (H : Heap) (w h : ℕ) (val : Heap → ℕ → ℕ → RGBA) :
    Heap × ℕ :=
  ((pixelList w h).foldl
      (fun Hc p => heapWrite Hc H.next (setRGBA p.1 p.2 (val Hc p.1 p.2)))
      (heapAlloc H (.rgba ⟨w, h, fun _ _ => ⟨0, 0, 0, 0⟩⟩)).1,
   H.next)

/-- Allocate a `w×h` Gray buffer and run the per-pixel `Set` loop on it. -/
def allocSetLoopGray (H : Heap) (w h : ℕ) (val : Heap → ℕ → ℕ → ℕ) :
    Heap × ℕ :=
  ((pixelList w h).foldl
      (fun Hc p => heapWrite Hc H.next (setGray p.1 p.2 (val Hc p.1 p.2)))
      (heapAlloc H (.gray ⟨w, h, fun _ _ => 0⟩)).1,
   H.next)

/-- `ResizeImage` body after decoding: `resize.Resize` (library parameter
`rz`) returns a fresh buffer with the computed target dimensions. -/
def runResize (H : Heap) (src : ℕ) (rz : RGBAImage → ℕ → ℕ → RGBAImage)
    (tw th : ℕ) : Heap × ℕ :=
  heapAlloc H (.rgba (rz (bufRGBA (H.buf src))
    (resizeDims (bufRGBA (H.buf src)).w (bufRGBA (H.buf src)).h tw th).1
    (resizeDims (bufRGBA (H.buf src)).w (bufRGBA (H.buf src)).h tw th).2))

/-- `DenoiseImage` body: fresh RGBA buffer, `denoised.Set x y
(medianFilter img x y)` over the full bounds. -/
def runDenoise (H : Heap) (src : ℕ) : Heap × ℕ :=
  allocSetLoopRGBA H (bufRGBA (H.buf src)).w (bufRGBA (H.buf src)).h
    (fun Hc x y => medianFilterAt (bufRGBA (Hc.buf src)) (x : ℤ) (y : ℤ))

/-- `rotateImage` body: fresh RGBA buffer of the rotated size,
`rotated.Set` with the inverse-rotated source sample. -/
def runRotate (H : Heap) (src : ℕ) (cosR sinR : ℚ) : Heap × ℕ :=
  allocSetLoopRGBA H (rotateImage (bufRGBA (H.buf src)) cosR sinR).w
    (rotateImage (bufRGBA (H.buf src)) cosR sinR).h
    (fun Hc x y => (rotateImage (bufRGBA (Hc.buf src)) cosR sinR).pix x y)

/-- The grayscale pass shared by `BinarizeImage`, `DetectEdges` and the
internal `detectEdges`: fresh Gray buffer, `grayImg.Set x y
(GrayModel.Convert (img.At x y))`. -/
def runGrayscale (H : Heap) (src : ℕ) : Heap × ℕ :=
  allocSetLoopGray H (bufRGBA (H.buf src)).w (bufRGBA (H.buf src)).h
    (fun Hc x y => grayVal ((bufRGBA (Hc.buf src)).pix x y))

/-- `BinarizeImage` body: the grayscale pass, then a fresh Gray buffer
written white/black against the Otsu threshold of the gray buffer. -/
def runBinarize (H : Heap) (src : ℕ) : Heap × ℕ :=
  allocSetLoopGray (runGrayscale H src).1 (bufRGBA (H.buf src)).w
    (bufRGBA (H.buf src)).h
    (fun Hc x y =>
      if otsuThreshold (histOf (bufGray (Hc.buf (runGrayscale H src).2)))
          (((bufRGBA (H.buf src)).w * (bufRGBA (H.buf src)).h : ℕ) : ℤ)
          < (bufGray (Hc.buf (runGrayscale H src).2)).pix x y then 255 else 0)

/-- Public `DetectEdges` body: the grayscale pass, then a fresh Gray
buffer written with the (unclamped, wrapping) Sobel magnitude at interior
pixels. -/
def runDetectEdges (H : Heap) (src : ℕ) : Heap × ℕ :=
  allocSetLoopGray (runGrayscale H src).1 (bufRGBA (H.buf src)).w
    (bufRGBA (H.buf src)).h
    (fun Hc x y =>
      if 1 ≤ x ∧ x + 1 < (bufRGBA (H.buf src)).w ∧
          1 ≤ y ∧ y + 1 < (bufRGBA (H.buf src)).h then
        sobelMag (bufGray (Hc.buf (runGrayscale H src).2)) x y % 256
      else 0)

/-- Internal `detectEdges` (used by `AutoRotateImage`): like the public
one but with the `math.Min(magnitude, 255)` clamp. -/
def runDetectEdgesAuto (H : Heap) (src : ℕ) : Heap × ℕ :=
  allocSetLoopGray (runGrayscale H src).1 (bufRGBA (H.buf src)).w
    (bufRGBA (H.buf src)).h
    (fun Hc x y =>
      if 1 ≤ x ∧ x + 1 < (bufRGBA (H.buf src)).w ∧
          1 ≤ y ∧ y + 1 < (bufRGBA (H.buf src)).h then
        min (sobelMag (bufGray (Hc.buf (runGrayscale H src).2)) x y) 255
      else 0)

/-- `AutoRotateImage` body after decoding: internal edge detection, the
read-only Hough skew estimate on the edges buffer, then `rotateImage(img,
-angle)`; `cosOf`/`sinOf` abstract `math.Cos`/`math.Sin` of
`-angle·π/180`. -/
def runAutoRotate (H : Heap) (src : ℕ) (cosT sinT : ℕ → ℚ)
    (cosOf sinOf : ℚ → ℚ) : Heap × ℕ :=
  runRotate (runDetectEdgesAuto H src).1 src
    (cosOf (detectSkewAngle
      (bufGray ((runDetectEdgesAuto H src).1.buf (runDetectEdgesAuto H src).2))
      cosT sinT))
    (sinOf (detectSkewAngle
      (bufGray ((runDetectEdgesAuto H src).1.buf (runDetectEdgesAuto H src).2))
      cosT sinT))

def heapDims (H : Heap) (srcs : List ℕ) : List (ℕ × ℕ) :=
  srcs.map (fun a => ((bufRGBA (H.buf a)).w, (bufRGBA (H.buf a)).h))

/-- `ConcatenateImagesVertically` body after decoding: fresh RGBA output
of the computed dimensions, then one library resize plus one `draw.Draw`
into the output per input, tracking the vertical offset. -/
def runConcatV (H : Heap) (srcs : List ℕ)
    (rz : RGBAImage → ℕ → ℕ → RGBAImage) : Heap × ℕ :=
  ((srcs.foldl
      (fun st a =>
        (heapWrite st.1 H.next
          (drawAt
            (rz (bufRGBA (st.1.buf a)) (concatVMaxWidth (heapDims H srcs))
              (concatVHeight (concatVMaxWidth (heapDims H srcs))
                ((bufRGBA (st.1.buf a)).w, (bufRGBA (st.1.buf a)).h)))
            st.2),
         st.2 +
           (rz (bufRGBA (st.1.buf a)) (concatVMaxWidth (heapDims H srcs))
             (concatVHeight (concatVMaxWidth (heapDims H srcs))
               ((bufRGBA (st.1.buf a)).w, (bufRGBA (st.1.buf a)).h))).h))
      ((heapAlloc H (.rgba ⟨(concatVDims (heapDims H srcs)).1,
          (concatVDims (heapDims H srcs)).2, fun _ _ => ⟨0, 0, 0, 0⟩⟩)).1, 0)).1,
   H.next)

/-- `draw.Draw(dst, Rect(x0, 0, x0+src.w, maxH), src, ...)`: stamp `src`
into the RGBA buffer at horizontal offset `x0`. -/
def drawAtH (srcImg : RGBAImage) (x0 : ℕ) (b : Buf) : Buf :=
  .rgba ⟨(bufRGBA b).w, (bufRGBA b).h,
    fun x y =>
      if x0 ≤ x ∧ x < x0 + srcImg.w ∧ y < srcImg.h then srcImg.pix (x - x0) y
      else (bufRGBA b).pix x y⟩

/-- `ConcatenateImagesHorizontally` body after decoding: fresh RGBA output
of the computed dimensions, then one library resize plus one `draw.Draw`
into the output per input, tracking the horizontal offset. -/
def runConcatH (H : Heap) (srcs : List ℕ)
    (rz : RGBAImage → ℕ → ℕ → RGBAImage) : Heap × ℕ :=
  ((srcs.foldl
      (fun st a =>
        (heapWrite st.1 H.next
          (drawAtH
            (rz (bufRGBA (st.1.buf a))
              (concatHWidth (concatHMaxHeight (heapDims H srcs))
                ((bufRGBA (st.1.buf a)).w, (bufRGBA (st.1.buf a)).h))
              (concatHMaxHeight (heapDims H srcs)))
            st.2),
         st.2 +
           (rz (bufRGBA (st.1.buf a))
             (concatHWidth (concatHMaxHeight (heapDims H srcs))
               ((bufRGBA (st.1.buf a)).w, (bufRGBA (st.1.buf a)).h))
             (concatHMaxHeight (heapDims H srcs))).w))
      ((heapAlloc H (.rgba ⟨(concatHDims (heapDims H srcs)).1,
          (concatHDims (heapDims H srcs)).2, fun _ _ => ⟨0, 0, 0, 0⟩⟩)).1, 0)).1,
   H.next)

theorem heapWrite_frame (H : Heap) (a : ℕ) (upd : Buf → Buf) (b : ℕ)
    (hb : b ≠ a) : (heapWrite H a upd).buf b = H.buf b := by
  unfold heapWrite
  simp [hb]

theorem heapAlloc_frame (H : Heap) (c : Buf) (b : ℕ) (hb : b < H.next) :
    ((heapAlloc H c).1).buf b = H.buf b := by
  unfold heapAlloc
  simp [Nat.ne_of_lt hb]

theorem foldl_write_frame {α : Type} (P : List α) (out : ℕ)
    (step : Heap → α → Heap)
    (hstep : ∀ Hc p b, b ≠ out → (step Hc p).buf b = Hc.buf b) :
    ∀ (H : Heap) (b : ℕ), b ≠ out → (P.foldl step H).buf b = H.buf b := by
  induction P with
  | nil =>
    intro H b hb
    rfl
  | cons p P ih =>
    intro H b hb
    rw [List.foldl_cons, ih _ b hb, hstep H p b hb]

theorem foldl_write_next {α : Type} (P : List α) (step : Heap → α → Heap)
    (hstep : ∀ Hc p, (step Hc p).next = Hc.next) :
    ∀ H : Heap, (P.foldl step H).next = H.next := by
  induction P with
  | nil =>
    intro H
    rfl
  | cons p P ih =>
    intro H
    rw [List.foldl_cons, ih _, hstep H p]

theorem foldl_write_frame_st {α σ : Type} (P : List α) (out : ℕ)
    (step : Heap × σ → α → Heap × σ)
    (hstep : ∀ st p b, b ≠ out → ((step st p).1).buf b = st.1.buf b) :
    ∀ (st : Heap × σ) (b : ℕ), b ≠ out →
      ((P.foldl step st).1).buf b = st.1.buf b := by
  induction P with
  | nil =>
    intro st b hb
    rfl
  | cons p P ih =>
    intro st b hb
    rw [List.foldl_cons, ih _ b hb, hstep st p b hb]

theorem allocSetLoopRGBA_frame (H : Heap) (w h : ℕ)
    (val : Heap → ℕ → ℕ → RGBA) (b : ℕ) (hb : b < H.next) :
    ((allocSetLoopRGBA H w h val).1).buf b = H.buf b := by
  unfold allocSetLoopRGBA
  rw [foldl_write_frame (pixelList w h) H.next _
    (fun Hc p b hb => heapWrite_frame Hc H.next _ b hb) _ b (Nat.ne_of_lt hb)]
  exact heapAlloc_frame H _ b hb

theorem allocSetLoopRGBA_next (H : Heap) (w h : ℕ)
    (val : Heap → ℕ → ℕ → RGBA) :
    ((allocSetLoopRGBA H w h val).1).next = H.next + 1 := by
  unfold allocSetLoopRGBA
  rw [foldl_write_next (pixelList w h)
    (fun Hc p => heapWrite Hc H.next (setRGBA p.1 p.2 (val Hc p.1 p.2)))
    (fun Hc p => rfl)]
  rfl

theorem allocSetLoopGray_frame (H : Heap) (w h : ℕ)
    (val : Heap → ℕ → ℕ → ℕ) (b : ℕ) (hb : b < H.next) :
    ((allocSetLoopGray H w h val).1).buf b = H.buf b := by
  unfold allocSetLoopGray
  rw [foldl_write_frame (pixelList w h) H.next _
    (fun Hc p b hb => heapWrite_frame Hc H.next _ b hb) _ b (Nat.ne_of_lt hb)]
  exact heapAlloc_frame H _ b hb

theorem allocSetLoopGray_next (H : Heap) (w h : ℕ)
    (val : Heap → ℕ → ℕ → ℕ) :
    ((allocSetLoopGray H w h val).1).next = H.next + 1 := by
  unfold allocSetLoopGray
  rw [foldl_write_next (pixelList w h)
    (fun Hc p => heapWrite Hc H.next (setGray p.1 p.2 (val Hc p.1 p.2)))
    (fun Hc p => rfl)]
  rfl

/-- C9: every core operation writes only to its freshly allocated output
buffers: running resize, denoise, rotate, binarize, edge detection,
auto-rotate, vertical concatenation or horizontal concatenation on a heap
leaves every pre-existing buffer — in particular every input buffer —
with exactly its previous contents, and each operation's output address
is fresh (not a pre-existing address). -/
theorem ops_preserve_input (H : Heap) (src b : ℕ) (srcs : List ℕ)
    (rz : RGBAImage → ℕ → ℕ → RGBAImage) (cosR sinR : ℚ) (cosT sinT : ℕ → ℚ)
    (cosOf sinOf : ℚ → ℚ) (tw th : ℕ) (hb : b < H.next) :
    ((runResize H src rz tw th).1).buf b = H.buf b ∧
    ((runDenoise H src).1).buf b = H.buf b ∧
    ((runRotate H src cosR sinR).1).buf b = H.buf b ∧
    ((runBinarize H src).1).buf b = H.buf b ∧
    ((runDetectEdges H src).1).buf b = H.buf b ∧
    ((runAutoRotate H src cosT sinT cosOf sinOf).1).buf b = H.buf b ∧
    ((runConcatV H srcs rz).1).buf b = H.buf b ∧
    ((runConcatH H srcs rz).1).buf b = H.buf b ∧
    H.next ≤ (runResize H src rz tw th).2 ∧
    H.next ≤ (runDenoise H src).2 ∧
    H.next ≤ (runRotate H src cosR sinR).2 ∧
    H.next ≤ (runBinarize H src).2 ∧
    H.next ≤ (runDetectEdges H src).2 ∧
    H.next ≤ (runAutoRotate H src cosT sinT cosOf sinOf).2 ∧
    H.next ≤ (runConcatV H srcs rz).2 ∧
    H.next ≤ (runConcatH H srcs rz).2 := by
  have hgrayNext : ((runGrayscale H src).1).next = H.next + 1 :=
    allocSetLoopGray_next H _ _ _
  have hgrayFrame : ∀ b2, b2 < H.next →
      ((runGrayscale H src).1).buf b2 = H.buf b2 :=
    fun b2 hb2 => allocSetLoopGray_frame H _ _ _ b2 hb2
  have hedgesANext : ((runDetectEdgesAuto H src).1).next = H.next + 2 := by
    unfold runDetectEdgesAuto
    rw [allocSetLoopGray_next, hgrayNext]
  have hedgesAFrame : ∀ b2, b2 < H.next →
      ((runDetectEdgesAuto H src).1).buf b2 = H.buf b2 := by
    intro b2 hb2
    unfold runDetectEdgesAuto
    rw [allocSetLoopGray_frame ((runGrayscale H src).1) _ _ _ b2 (by omega)]
    exact hgrayFrame b2 hb2
  refine ⟨?_, ?_, ?_, ?_, ?_, ?_, ?_, ?_, ?_, ?_, ?_, ?_, ?_, ?_, ?_, ?_⟩
  · exact heapAlloc_frame H _ b hb
  · exact allocSetLoopRGBA_frame H _ _ _ b hb
  · exact allocSetLoopRGBA_frame H _ _ _ b hb
  · unfold runBinarize
    rw [allocSetLoopGray_frame ((runGrayscale H src).1) _ _ _ b (by omega)]
    exact hgrayFrame b hb
  · unfold runDetectEdges
    rw [allocSetLoopGray_frame ((runGrayscale H src).1) _ _ _ b (by omega)]
    exact hgrayFrame b hb
  · unfold runAutoRotate runRotate
    rw [allocSetLoopRGBA_frame ((runDetectEdgesAuto H src).1) _ _ _ b (by omega)]
    exact hedgesAFrame b hb
  · unfold runConcatV
    rw [foldl_write_frame_st srcs H.next _
      (fun st p b2 hb2 => heapWrite_frame st.1 H.next _ b2 hb2) _ b
      (Nat.ne_of_lt hb)]
    exact heapAlloc_frame H _ b hb
  · unfold runConcatH
    rw [foldl_write_frame_st srcs H.next _
      (fun st p b2 hb2 => heapWrite_frame st.1 H.next _ b2 hb2) _ b
      (Nat.ne_of_lt hb)]
    exact heapAlloc_frame H _ b hb
  · exact Nat.le_refl _
  · exact Nat.le_refl _
  · exact Nat.le_refl _
  · unfold runBinarize
    show H.next ≤ ((runGrayscale H src).1).next
    omega
  · unfold runDetectEdges
    show H.next ≤ ((runGrayscale H src).1).next
    omega
  · unfold runAutoRotate runRotate
    show H.next ≤ ((runDetectEdgesAuto H src).1).next
    omega
  · exact Nat.le_refl _
  · exact Nat.le_refl _

/-- A one-buffer heap for the frame witness. -/
def heapW : Heap := ⟨1, fun _ => .rgba imgC⟩

/-- C9 (witness): on a concrete one-buffer heap, denoising leaves the
input buffer at address 0 unchanged. -/
theorem ops_preserve_input_witness :
    ((runDenoise heapW 0).1).buf 0 = heapW.buf 0 :=
  (ops_preserve_input heapW 0 0 [0] (fun img _ _ => img) 1 0 (fun _ => 1)
    (fun _ => 0) (fun _ => 1) (fun _ => 0) 1 1 (by decide)).2.1

end ImgProc
